import Mathlib

/-!
Verification of `src/main.cpp` of the Alpay-Advanced-Fractal-Sort repository.

The program is a single-file C++ sorting algorithm built from four functions:

* `alpayTripleFixBidirectional` : a bidirectional triple compare-swap loop
  (leaf-level sort for small ranges);
* `alpayTripleSortPivotArray`   : sorts a whole vector via the fix pass;
* `alpayMultiBucketMerge`       : a min-heap k-way merge of pre-sorted buckets;
* `alpayFractalSortAdvanced`    : the recursive sampling/partitioning driver.

The shallow embedding below models `std::vector<int>` as `List Int`, an
in-place function as a function returning the new list, and the C `rand()`
stream as an explicit function `g : Nat → Nat` together with a counter `pos`
(the number of `rand()` calls consumed so far), so that `g (pos + i)` is the
value of the i-th subsequent `rand()` call.

The C++ `while (changed)` loop of the fix pass is modelled with explicit fuel
(`fixIter`); the fuel `inversions l + 1` is proved sufficient below
(`fixIter_eq_tripleFixLoop`), so `tripleFixLoop` computes exactly the value at
which the unbounded loop exits.  The recursion of the fractal driver is NOT
structurally well-founded (a bucket can be as large as its parent range), so
the driver is modelled with fuel as well, returning `none` when the given
recursion-depth budget is exhausted: `fractalCore g fuel l pos = some (r, p)`
says the C++ recursion starting at `l` with randomness `g`, counter `pos`
completes within depth `fuel` and yields `r`.
-/

namespace AlpayFractal

/-! ### 1. Bidirectional triple fix pass (`alpayTripleFixBidirectional`) -/

/-- One conditional compare-swap `if (a > b) swap(a, b)`, also reporting
whether it fired (the C++ code sets `changed = true` in that case). -/
def cs (a b : Int) : Int × Int × Bool :=
  if b < a then (b, a, true) else (a, b, false)

/-- The three pairwise compare-swaps the C++ loop body performs on the triple
`(arr[i], arr[i+1], arr[i+2])`:
`cs(i,i+1); cs(i+1,i+2); cs(i,i+1)` — a 3-element sorting network.
Returns the new triple and whether any swap fired. -/
def sort3 (a b c : Int) : Int × Int × Int × Bool :=
  let p1 := cs a b
  let p2 := cs p1.2.1 c
  let p3 := cs p1.1 p2.1
  (p3.1, p3.2.1, p2.2.1, p1.2.2 || p2.2.2 || p3.2.2)

/-- The forward sweep `for (i = start; i + 2 <= end; i++)`: successive
overlapping triples, left to right.  After the triple at `i` is processed the
next triple shares its last two positions, which is exactly this recursion. -/
def fwdAux : Int → Int → List Int → List Int × Bool
  | a, b, [] => ([a, b], false)
  | a, b, c :: r =>
    let t := sort3 a b c
    let s := fwdAux t.2.1 t.2.2.1 r
    (t.1 :: s.1, t.2.2.2 || s.2)

def fwdPass (l : List Int) : List Int × Bool :=
  match l with
  | a :: b :: c :: r => fwdAux a b (c :: r)
  | l => (l, false)

/-- The backward sweep `for (i = end - 2; i >= start; i--)`: the triples at
indices `i ≥ 1` lie entirely inside the tail and are processed first (right to
left), then the triple at `i = 0`.  The inner `match` on the processed tail is
exhaustive because the sweep preserves length (the default branch is
unreachable; it returns its input unchanged). -/
def bwdPass : List Int → List Int × Bool
  | a :: b :: c :: r =>
    let s := bwdPass (b :: c :: r)
    match s.1, s.2 with
    | b' :: c' :: r', ch =>
      let t := sort3 a b' c'
      (t.1 :: t.2.1 :: t.2.2.1 :: r', ch || t.2.2.2)
    | l', ch => (a :: l', ch)
  | l => (l, false)

/-- One iteration of the C++ `while (changed)` loop: a forward sweep followed
by a backward sweep, with the accumulated `changed` flag. -/
def fixCycle (l : List Int) : List Int × Bool :=
  let f := fwdPass l
  let b := bwdPass f.1
  (b.1, f.2 || b.2)

/-- The `while (changed)` loop, with explicit fuel.  When the flag of a cycle
is `false` the loop exits with the cycle's (unchanged) output, exactly as the
C++ loop does. -/
def fixIter : Nat → List Int → List Int
  | 0, l => l
  | fuel + 1, l =>
    let c := fixCycle l
    if c.2 then fixIter fuel c.1 else c.1

/-- Number of inversions (pairs out of order); the termination measure of the
fix-pass loop. -/
def inversions : List Int → Nat
  | [] => 0
  | a :: r => r.countP (fun x => decide (x < a)) + inversions r

/-- The fix-pass loop on a whole list of length ≥ 3.  Fuel `inversions l + 1`
is sufficient (proved below): each cycle with `changed = true` strictly
decreases `inversions`, so this equals the exit value of the unbounded
C++ loop. -/
def tripleFixLoop (l : List Int) : List Int :=
  fixIter (inversions l + 1) l

/-- The contiguous subrange `arr[s..e]` (inclusive) of a list. -/
def slice (arr : List Int) (s e : Nat) : List Int :=
  (arr.drop s).take (e + 1 - s)

/-- `alpayTripleFixBidirectional(arr, start, end)` from `src/main.cpp`:
* `start >= end`: no-op;
* `end - start == 1`: one compare-swap of `arr[start]`, `arr[start+1]`;
* otherwise: the bidirectional triple-pass loop on the subrange, which only
  touches indices in `[start, end]`, modelled by rebuilding
  `take start ++ (loop on the slice) ++ drop (end+1)`. -/
def alpayTripleFixBidirectional (arr : List Int) (s e : Nat) : List Int :=
  if e ≤ s then arr
  else if e = s + 1 then
    if arr.getD (s + 1) 0 < arr.getD s 0 then
      (arr.set s (arr.getD (s + 1) 0)).set (s + 1) (arr.getD s 0)
    else arr
  else arr.take s ++ tripleFixLoop (slice arr s e) ++ arr.drop (e + 1)

/-- `alpayTripleSortPivotArray(pivots)`: sorts a whole vector by the fix pass
over its full range `[0, size-1]`.  (The driver also sorts its sample vector
by this very call shape.) -/
def alpayTripleSortPivotArray (l : List Int) : List Int :=
  alpayTripleFixBidirectional l 0 (l.length - 1)

/-! ### 2. Min-heap k-way merge (`alpayMultiBucketMerge`) -/

/-- The C++ `HeapItem { int value; int bIndex; int iIndex; }`. -/
structure HeapItem where
  value : Int
  bIndex : Nat
  iIndex : Nat
deriving DecidableEq

/-- Extract a minimum-value item from the (unordered) heap contents, returning
it and the remaining items.  `std::priority_queue` with `greater<HeapItem>`
always pops an item of minimal `value`; its tie-break among equal values is
unspecified, and this model fixes one concrete choice (the first minimum),
which is one of the behaviours the implementation may exhibit. -/
def popMin : List HeapItem → Option (HeapItem × List HeapItem)
  | [] => none
  | h :: t =>
    match popMin t with
    | none => some (h, [])
    | some (m, rest) => if h.value ≤ m.value then some (h, t) else some (m, h :: rest)

/-- The elements of bucket `m.bIndex` not yet emitted when `m` is in the heap:
positions `m.iIndex` onward. -/
def remainingOf (B : List (List Int)) (m : HeapItem) : List Int :=
  (B.getD m.bIndex []).drop m.iIndex

/-- Number of not-yet-emitted elements tracked by the heap; decreases by one
per merge-loop iteration. -/
def heapMeasure (B : List (List Int)) (h : List HeapItem) : Nat :=
  (h.map (fun m => (B.getD m.bIndex []).length - m.iIndex)).sum

/-- The multiset of all not-yet-emitted elements tracked by a heap;
specification device for the merge loop's invariant. -/
def heapContents (B : List (List Int)) (h : List HeapItem) : Multiset Int :=
  (h.map (fun m => ((remainingOf B m : List Int) : Multiset Int))).sum

/-- The multiset union of all buckets; specification device. -/
def bucketsContents (L : List (List Int)) : Multiset Int :=
  (L.map (fun bu => ((bu : List Int) : Multiset Int))).sum

/-- The merge loop `while (!minHeap.empty())`: pop the minimum, append its
value to the output, and push the next element of the same bucket if any.
Fuel `heapMeasure` is exact (proved below), so with the fuel used in
`alpayMultiBucketMerge` the loop runs until the heap is empty. -/
def mergeLoop (B : List (List Int)) : Nat → List HeapItem → List Int → List Int
  | 0, _, acc => acc
  | fuel + 1, heap, acc =>
    match popMin heap with
    | none => acc
    | some (m, rest) =>
      let bu := B.getD m.bIndex []
      let ni := m.iIndex + 1
      let heap' := if ni < bu.length then (⟨bu.getD ni 0, m.bIndex, ni⟩ : HeapItem) :: rest else rest
      mergeLoop B fuel heap' (acc ++ [m.value])

/-- The initialization loop `for (b = 0; ...) if (!buckets[b].empty())
push {buckets[b][0], b, 0}`, with `b0` the index of the first bucket of the
remaining list. -/
def initHeap : Nat → List (List Int) → List HeapItem
  | _, [] => []
  | b0, bu :: rest =>
    match bu with
    | [] => initHeap (b0 + 1) rest
    | x :: _ => (⟨x, b0, 0⟩ : HeapItem) :: initHeap (b0 + 1) rest

/-- `alpayMultiBucketMerge(buckets, dest)` from `src/main.cpp`.  The C++
function starts with `dest.clear()`, so the prior contents of `dest` are
discarded and the output is rebuilt from the buckets alone; accordingly the
`dest` argument is unused here.  `total` (computed in the C++ code for
`reserve`) doubles as the loop fuel, which is exactly the number of
iterations the loop performs. -/
def alpayMultiBucketMerge (buckets : List (List Int)) (dest : List Int) : List Int :=
  mergeLoop buckets ((buckets.map List.length).sum) (initHeap 0 buckets) []

/-! ### 3. Fractal sort driver (`alpayFractalSortAdvanced`) -/

/-- `ALPAY_SMALL_THRESH = 12`. -/
def ALPAY_SMALL_THRESH : Nat := 12

/-- `pivotCount = std::max(2, (int)std::sqrt((double)size))`.  For every
feasible vector size (`size < 2^31`) the double conversion and `std::sqrt`
are exact enough that the truncated result is `Nat.sqrt size`. -/
def pivotCountOf (size : Nat) : Nat := max 2 (Nat.sqrt size)

/-- `pivotSampleCount = std::max(pivotCount, (int)(pivotCount * 2.0))`;
the multiplication by `PIVOT_SAMPLE_FACTOR = 2.0` is exact. -/
def sampleCountOf (size : Nat) : Nat := max (pivotCountOf size) (2 * pivotCountOf size)

/-- `cut = (int)(PIVOT_OUTLIER_FRAC * samples.size())` with
`PIVOT_OUTLIER_FRAC = 0.15`.  For every feasible sample count `n` the
truncated double product equals `⌊3n/20⌋`: when `3n/20` is not an integer its
fractional part is at least `1/20`, and when it is an integer the rounded
double product is exactly that integer, so truncation agrees in both cases. -/
def cutOf (n : Nat) : Nat := 3 * n / 20

/-- The outlier-trim step: if `cut*2 < samples.size() - pivotCount`, erase the
lowest `cut` and highest `cut` entries of the sorted sample vector. -/
def trimSamples (p : Nat) (s : List Int) : List Int :=
  let c := cutOf s.length
  if 2 * c < s.length - p then (s.drop c).take (s.length - 2 * c) else s

/-- `step = std::max(1, (int)samples.size() / pivotCount)`. -/
def stepOf (m p : Nat) : Nat := max 1 (m / p)

/-- The pivot-selection loop `pivots.push_back(samples[i * step])`,
`i = 0 .. pivotCount-1`, over the trimmed sorted sample vector `t`. -/
def pickPivots (p : Nat) (t : List Int) : List Int :=
  (List.range p).map (fun i => t.getD (i * stepOf t.length p) 0)

/-- The bucket index chosen by the partition loop
`while (b < pivotCount && x >= pivots[b]) b++;`:
the length of the longest prefix of `pivots` whose entries are `≤ x`. -/
def bucketIndexOf (pivots : List Int) (x : Int) : Nat :=
  (pivots.takeWhile (fun v => decide (v ≤ x))).length

/-- `buckets[b].push_back(x)`. -/
def appendAt (b : Nat) (x : Int) (bs : List (List Int)) : List (List Int) :=
  bs.set b (bs.getD b [] ++ [x])

/-- The partition loop: starting from `pivotCount + 1` empty buckets, append
each element of the range, in order, to the bucket selected by
`bucketIndexOf`. -/
def distribute (pivots : List Int) (xs : List Int) : List (List Int) :=
  xs.foldl (fun bs x => appendAt (bucketIndexOf pivots x) x bs)
    (List.replicate (pivots.length + 1) [])

/-- The sampling loop: `samples.push_back(arr[start + rand() % size])`,
`pivotSampleCount` times, on a whole list (the driver's current range).  The
i-th iteration consumes the `(pos+i)`-th value of the `rand()` stream `g`. -/
def drawSamples (g : Nat → Nat) (pos : Nat) (l : List Int) : List Int :=
  (List.range (sampleCountOf l.length)).map (fun i => l.getD (g (pos + i) % l.length) 0)

mutual

/-- `alpayFractalSortAdvanced(arr, 0, size-1)` on a whole list (every
recursive call of the C++ function has this shape: `(bucket, 0, size-1)`).
`fuel` bounds the recursion depth; `none` means the bound was exceeded —
the C++ code has no such bound, so `none` for every `fuel` means the C++
recursion never returns.  Returns the sorted list and the advanced `rand()`
counter. -/
def fractalCore (g : Nat → Nat) : Nat → List Int → Nat → Option (List Int × Nat)
  | 0, _, _ => none
  | fuel + 1, l, pos =>
    if l.length ≤ ALPAY_SMALL_THRESH then
      some (alpayTripleSortPivotArray l, pos)
    else
      let p := pivotCountOf l.length
      let sortedSamples := alpayTripleSortPivotArray (drawSamples g pos l)
      let pivots := alpayTripleSortPivotArray (pickPivots p (trimSamples p sortedSamples))
      match sortBuckets g fuel (distribute pivots l) (pos + sampleCountOf l.length) with
      | none => none
      | some (bs, pos') => some (alpayMultiBucketMerge bs [], pos')
termination_by fuel _ _ => (fuel, 0)

/-- The loop `for (auto &bucket : buckets) if (bucket.size() > 1)
alpayFractalSortAdvanced(bucket, 0, bucket.size() - 1);`, threading the
`rand()` counter through the recursive calls. -/
def sortBuckets (g : Nat → Nat) : Nat → List (List Int) → Nat → Option (List (List Int) × Nat)
  | _, [], pos => some ([], pos)
  | fuel, b :: rest, pos =>
    if 1 < b.length then
      match fractalCore g fuel b pos with
      | none => none
      | some (b', pos') =>
        match sortBuckets g fuel rest pos' with
        | none => none
        | some (bs, pos'') => some (b' :: bs, pos'')
    else
      match sortBuckets g fuel rest pos with
      | none => none
      | some (bs, pos') => some (b :: bs, pos')
termination_by fuel bs _ => (fuel, bs.length + 1)

end

/-- `alpayFractalSortAdvanced(arr, start, end)` on an arbitrary range of a
list:
* `size = end - start + 1 ≤ ALPAY_SMALL_THRESH`: delegate directly to the fix
  pass (for `start ≥ end`, both in C++ — where `size ≤ 0` — and here — where
  the truncated subtraction gives `size ≤ 1` — this is a no-op);
* otherwise the whole computation only touches `arr[start..end]`, modelled by
  running `fractalCore` on the slice and re-assembling. -/
def alpayFractalSortAdvanced (g : Nat → Nat) (fuel : Nat) (arr : List Int)
    (s e : Nat) (pos : Nat) : Option (List Int × Nat) :=
  if e + 1 - s ≤ ALPAY_SMALL_THRESH then
    some (alpayTripleFixBidirectional arr s e, pos)
  else
    match fractalCore g fuel (slice arr s e) pos with
    | none => none
    | some (r, pos') => some (arr.take s ++ r ++ arr.drop (e + 1), pos')

/-! ### Lemmas: the triple compare-swap network -/

def invT (a b c : Int) : Nat :=
  (if b < a then 1 else 0) + (if c < a then 1 else 0) + (if c < b then 1 else 0)

theorem sort3_le₁ (a b c : Int) : (sort3 a b c).1 ≤ (sort3 a b c).2.1 := by
  simp only [sort3, cs]
  split_ifs <;> simp_all <;> omega

theorem sort3_le₂ (a b c : Int) : (sort3 a b c).2.1 ≤ (sort3 a b c).2.2.1 := by
  simp only [sort3, cs]
  split_ifs <;> simp_all <;> omega

theorem sort3_perm (a b c : Int) :
    List.Perm [(sort3 a b c).1, (sort3 a b c).2.1, (sort3 a b c).2.2.1] [a, b, c] := by
  simp only [sort3, cs]
  split_ifs
  all_goals refine List.perm_iff_count.mpr fun v => ?_
  all_goals simp only [List.count_cons, List.count_nil, beq_iff_eq]
  all_goals split_ifs <;> omega

theorem sort3_eq_of_flag_false (a b c : Int) (h : (sort3 a b c).2.2.2 = false) :
    (sort3 a b c).1 = a ∧ (sort3 a b c).2.1 = b ∧ (sort3 a b c).2.2.1 = c ∧ a ≤ b ∧ b ≤ c := by
  simp only [sort3, cs] at h ⊢
  split_ifs at h ⊢ <;> simp_all

theorem sort3_invT_pos (a b c : Int) (h : (sort3 a b c).2.2.2 = true) :
    1 ≤ invT a b c := by
  simp only [sort3, cs] at h
  unfold invT
  split_ifs at h <;> split_ifs <;> simp_all

theorem inversions_cons (a : Int) (l : List Int) :
    inversions (a :: l) = l.countP (fun x => decide (x < a)) + inversions l := rfl

theorem inversions_three (a b c : Int) (r : List Int) :
    inversions (a :: b :: c :: r) =
      invT a b c +
        (r.countP (fun x => decide (x < a)) + r.countP (fun x => decide (x < b)) +
          r.countP (fun x => decide (x < c))) + inversions r := by
  simp only [inversions, List.countP_cons, invT, decide_eq_true_eq]
  split_ifs <;> omega

theorem countP_sum_triple {x y z a b c : Int}
    (h : List.Perm [x, y, z] [a, b, c]) (r : List Int) :
    r.countP (fun u => decide (u < x)) + r.countP (fun u => decide (u < y)) +
      r.countP (fun u => decide (u < z)) =
    r.countP (fun u => decide (u < a)) + r.countP (fun u => decide (u < b)) +
      r.countP (fun u => decide (u < c)) := by
  have hs := (h.map (fun t => r.countP (fun u => decide (u < t)))).sum_eq
  simp only [List.map_cons, List.map_nil, List.sum_cons, List.sum_nil] at hs
  omega

theorem invT_eq_zero {a b c : Int} (h1 : a ≤ b) (h2 : b ≤ c) : invT a b c = 0 := by
  unfold invT
  split_ifs <;> omega

theorem sort3_inversions (a b c : Int) (r : List Int) :
    inversions ((sort3 a b c).1 :: (sort3 a b c).2.1 :: (sort3 a b c).2.2.1 :: r) + invT a b c
      = inversions (a :: b :: c :: r) := by
  rw [inversions_three, inversions_three,
    invT_eq_zero (sort3_le₁ a b c) (sort3_le₂ a b c),
    countP_sum_triple (sort3_perm a b c) r]
  omega

theorem fwdAux_eq_fwdPass (a b : Int) (l : List Int) :
    fwdAux a b l = fwdPass (a :: b :: l) := by
  cases l <;> rfl

theorem fwdPass_cons3 (a b c : Int) (r : List Int) :
    fwdPass (a :: b :: c :: r) =
      ((sort3 a b c).1 :: (fwdPass ((sort3 a b c).2.1 :: (sort3 a b c).2.2.1 :: r)).1,
        (sort3 a b c).2.2.2 || (fwdPass ((sort3 a b c).2.1 :: (sort3 a b c).2.2.1 :: r)).2) := by
  have h1 : fwdPass (a :: b :: c :: r) =
      ((sort3 a b c).1 :: (fwdAux (sort3 a b c).2.1 (sort3 a b c).2.2.1 r).1,
        (sort3 a b c).2.2.2 || (fwdAux (sort3 a b c).2.1 (sort3 a b c).2.2.1 r).2) := rfl
  rw [h1, fwdAux_eq_fwdPass]

theorem fwdPass_spec (l : List Int) :
    List.Perm (fwdPass l).1 l ∧
    inversions (fwdPass l).1 + (if (fwdPass l).2 then 1 else 0) ≤ inversions l ∧
    ((fwdPass l).2 = false → (fwdPass l).1 = l) := by
  suffices H : ∀ (n : Nat) (l : List Int), l.length ≤ n →
      List.Perm (fwdPass l).1 l ∧
      inversions (fwdPass l).1 + (if (fwdPass l).2 then 1 else 0) ≤ inversions l ∧
      ((fwdPass l).2 = false → (fwdPass l).1 = l) from H l.length l (le_refl _)
  intro n
  induction n with
  | zero =>
    intro l hl
    have hnil : l = [] := List.length_eq_zero.mp (by omega)
    subst hnil
    exact ⟨List.Perm.refl _, by simp [fwdPass], fun _ => rfl⟩
  | succ n ih =>
    intro l hl
    rcases l with _ | ⟨a, _ | ⟨b, _ | ⟨c, r⟩⟩⟩
    · exact ⟨List.Perm.refl _, by simp [fwdPass], fun _ => rfl⟩
    · exact ⟨List.Perm.refl _, by simp [fwdPass], fun _ => rfl⟩
    · exact ⟨List.Perm.refl _, by simp [fwdPass], fun _ => rfl⟩
    · obtain ⟨ihp, ihi, ihe⟩ := ih ((sort3 a b c).2.1 :: (sort3 a b c).2.2.1 :: r)
        (by simp at hl ⊢; omega)
      rw [fwdPass_cons3]
      have hmid : List.Perm
          ((sort3 a b c).1 :: (sort3 a b c).2.1 :: (sort3 a b c).2.2.1 :: r)
          (a :: b :: c :: r) := by
        simpa using (sort3_perm a b c).append_right r
      refine ⟨(ihp.cons _).trans hmid, ?_, ?_⟩
      · have hcount := ihp.countP_eq (fun u => decide (u < (sort3 a b c).1))
        have hinv3 := sort3_inversions a b c r
        have h1 := inversions_cons ((sort3 a b c).1)
          ((fwdPass ((sort3 a b c).2.1 :: (sort3 a b c).2.2.1 :: r)).1)
        have h2 := inversions_cons ((sort3 a b c).1)
          ((sort3 a b c).2.1 :: (sort3 a b c).2.2.1 :: r)
        cases hs3 : (sort3 a b c).2.2.2 with
        | true =>
          have := sort3_invT_pos a b c hs3
          simp only [hs3, Bool.true_or, if_true]
          omega
        | false =>
          cases hs' : (fwdPass ((sort3 a b c).2.1 :: (sort3 a b c).2.2.1 :: r)).2 with
          | true =>
            simp only [hs3, hs', Bool.false_or, if_true] at *
            omega
          | false =>
            simp only [hs3, hs', Bool.false_or, if_false] at *
            omega
      · intro hfl
        simp only [Bool.or_eq_false_iff] at hfl
        obtain ⟨hs3, hs'⟩ := hfl
        obtain ⟨e1, e2, e3, -, -⟩ := sort3_eq_of_flag_false a b c hs3
        have hm := ihe hs'
        rw [hm, e1, e2, e3]

/-- If the forward sweep fires no swap on a list of length ≥ 3, every
adjacent pair was already in order. -/
theorem fwdPass_chain (l : List Int) (hl : 3 ≤ l.length)
    (h : (fwdPass l).2 = false) : List.Chain' (· ≤ ·) l := by
  suffices H : ∀ (n : Nat) (l : List Int), l.length ≤ n → 3 ≤ l.length →
      (fwdPass l).2 = false → List.Chain' (· ≤ ·) l from H l.length l (le_refl _) hl h
  intro n
  induction n with
  | zero =>
    intro l h1 h2 h3
    omega
  | succ n ih =>
    intro l h1 h2 h3
    rcases l with _ | ⟨a, _ | ⟨b, _ | ⟨c, r⟩⟩⟩
    · simp at h2
    · simp at h2
    · simp at h2
    · rw [fwdPass_cons3] at h3
      simp only [Bool.or_eq_false_iff] at h3
      obtain ⟨hs3, hs'⟩ := h3
      obtain ⟨e1, e2, e3, hab, hbc⟩ := sort3_eq_of_flag_false a b c hs3
      rw [e2, e3] at hs'
      rcases r with _ | ⟨d, r'⟩
      · exact List.Chain'.cons hab (List.Chain'.cons hbc (List.chain'_singleton c))
      · have hch := ih (b :: c :: d :: r') (by simp at h1 ⊢; omega) (by simp) hs'
        exact List.Chain'.cons hab hch

theorem bwdPass_spec (l : List Int) :
    List.Perm (bwdPass l).1 l ∧
    inversions (bwdPass l).1 + (if (bwdPass l).2 then 1 else 0) ≤ inversions l ∧
    ((bwdPass l).2 = false → (bwdPass l).1 = l) := by
  induction l using bwdPass.induct with
  | case3 l h =>
    have he : bwdPass l = (l, false) := by
      rcases l with _ | ⟨a, _ | ⟨b, _ | ⟨c, r⟩⟩⟩
      · simp [bwdPass]
      · simp [bwdPass]
      · simp [bwdPass]
      · exact absurd rfl (h a b c r)
    rw [he]
    simp
  | case2 a b c r s hno ih =>
    exfalso
    have ht : s = bwdPass (b :: c :: r) := rfl
    clear_value s
    subst ht
    have hlen := ih.1.length_eq
    rcases hm : (bwdPass (b :: c :: r)).1 with _ | ⟨u, _ | ⟨v, w⟩⟩
    · rw [hm] at hlen; simp at hlen
    · rw [hm] at hlen; simp at hlen
    · exact hno u v w hm
  | case1 a b c r s b' c' r' heq ih =>
    have ht : s = bwdPass (b :: c :: r) := rfl
    clear_value s
    subst ht
    obtain ⟨ihp, ihi, ihe⟩ := ih
    have he : bwdPass (a :: b :: c :: r) =
        ((sort3 a b' c').1 :: (sort3 a b' c').2.1 :: (sort3 a b' c').2.2.1 :: r',
          (bwdPass (b :: c :: r)).2 || (sort3 a b' c').2.2.2) := by
      simp only [bwdPass]
      rw [heq]
    rw [he]
    rw [heq] at ihp ihi
    have hmid : List.Perm
        ((sort3 a b' c').1 :: (sort3 a b' c').2.1 :: (sort3 a b' c').2.2.1 :: r')
        (a :: b' :: c' :: r') := by
      simpa using (sort3_perm a b' c').append_right r'
    refine ⟨hmid.trans (ihp.cons a), ?_, ?_⟩
    · have hcount := ihp.countP_eq (fun u => decide (u < a))
      have hinv3 := sort3_inversions a b' c' r'
      have h1 := inversions_cons a (b' :: c' :: r')
      have h2 := inversions_cons a (b :: c :: r)
      cases hs' : (bwdPass (b :: c :: r)).2 with
      | true =>
        rw [hs'] at ihi
        simp only [eq_self_iff_true, if_true, Bool.true_or, Bool.or_true, Bool.false_or,
          Bool.or_false, Bool.false_eq_true, if_false] at ihi ⊢
        omega
      | false =>
        simp only [Bool.false_eq_true, if_false, Bool.false_or] at ihi ⊢
        cases hs3 : (sort3 a b' c').2.2.2 with
        | true =>
          have hp := sort3_invT_pos a b' c' hs3
          simp only [eq_self_iff_true, if_true]
          omega
        | false =>
          simp only [Bool.false_eq_true, if_false]
          omega
    · intro hfl
      simp only [Bool.or_eq_false_iff] at hfl
      obtain ⟨hs', hs3⟩ := hfl
      obtain ⟨e1, e2, e3, -, -⟩ := sort3_eq_of_flag_false a b' c' hs3
      have hm := ihe hs'
      rw [heq] at hm
      injection hm with hb hm
      injection hm with hc hr
      rw [e1, e2, e3, hb, hc, hr]

theorem fixCycle_spec (l : List Int) :
    List.Perm (fixCycle l).1 l ∧
    inversions (fixCycle l).1 + (if (fixCycle l).2 then 1 else 0) ≤ inversions l ∧
    ((fixCycle l).2 = false → (fixCycle l).1 = l) := by
  obtain ⟨fp, fi, fe⟩ := fwdPass_spec l
  obtain ⟨bp, bi, be⟩ := bwdPass_spec (fwdPass l).1
  have hc1 : (fixCycle l).1 = (bwdPass (fwdPass l).1).1 := rfl
  have hc2 : (fixCycle l).2 = ((fwdPass l).2 || (bwdPass (fwdPass l).1).2) := rfl
  rw [hc1, hc2]
  have hcnt := bp.countP_eq
  refine ⟨bp.trans fp, ?_, ?_⟩
  · have hbi := bi
    have hble : inversions (fwdPass l).1 ≤ inversions l := by
      cases hf : (fwdPass l).2 <;> simp only [hf, Bool.false_eq_true, if_false,
        eq_self_iff_true, if_true] at fi <;> omega
    cases hf : (fwdPass l).2 with
    | true =>
      rw [hf] at fi
      simp only [eq_self_iff_true, if_true, Bool.true_or] at fi ⊢
      cases hb : (bwdPass (fwdPass l).1).2 <;>
        simp only [hb, Bool.false_eq_true, if_false, eq_self_iff_true, if_true] at hbi <;>
        omega
    | false =>
      rw [hf] at fi
      simp only [Bool.false_eq_true, if_false, Bool.false_or] at fi ⊢
      cases hb : (bwdPass (fwdPass l).1).2 with
      | true =>
        rw [hb] at hbi
        simp only [eq_self_iff_true, if_true] at hbi ⊢
        omega
      | false =>
        rw [hb] at hbi
        simp only [Bool.false_eq_true, if_false] at hbi ⊢
        omega
  · intro h
    simp only [Bool.or_eq_false_iff] at h
    rw [be h.2, fe h.1]

/-- A cycle that fires no swap on a list of length ≥ 3 certifies that the
list is already sorted (the forward sweep checked every adjacent pair). -/
theorem fixCycle_flag_false_sorted (l : List Int) (hl : 3 ≤ l.length)
    (h : (fixCycle l).2 = false) : List.Sorted (· ≤ ·) l := by
  have hc2 : (fixCycle l).2 = ((fwdPass l).2 || (bwdPass (fwdPass l).1).2) := rfl
  rw [hc2] at h
  simp only [Bool.or_eq_false_iff] at h
  exact List.chain'_iff_pairwise.mp (fwdPass_chain l hl h.1)

theorem fixIter_perm (fuel : Nat) (l : List Int) : List.Perm (fixIter fuel l) l := by
  induction fuel generalizing l with
  | zero => simp [fixIter]
  | succ n ih =>
    have he : fixIter (n + 1) l =
        if (fixCycle l).2 then fixIter n (fixCycle l).1 else (fixCycle l).1 := by
      simp [fixIter]
    rw [he]
    obtain ⟨cp, -, -⟩ := fixCycle_spec l
    cases hc : (fixCycle l).2 with
    | true => simpa using (ih (fixCycle l).1).trans cp
    | false => simpa using cp

/-- With fuel exceeding the inversion count, the loop reaches a state whose
cycle fires no swap: the `while (changed)` loop exits. -/
theorem fixIter_fix (fuel : Nat) (l : List Int) (h : inversions l < fuel) :
    (fixCycle (fixIter fuel l)).2 = false := by
  induction fuel generalizing l with
  | zero => omega
  | succ n ih =>
    have he : fixIter (n + 1) l =
        if (fixCycle l).2 then fixIter n (fixCycle l).1 else (fixCycle l).1 := by
      simp [fixIter]
    rw [he]
    obtain ⟨-, ci, ce⟩ := fixCycle_spec l
    cases hc : (fixCycle l).2 with
    | true =>
      rw [hc] at ci
      simp only [eq_self_iff_true, if_true] at ci ⊢
      exact ih (fixCycle l).1 (by omega)
    | false =>
      simp only [Bool.false_eq_true, if_false]
      rw [ce hc]
      exact hc

/-- The loop value does not depend on the fuel, provided the fuel exceeds the
inversion count: the loop is total and `tripleFixLoop` computes its limit. -/
theorem fixIter_eq_tripleFixLoop (fuel : Nat) (l : List Int) (h : inversions l < fuel) :
    fixIter fuel l = tripleFixLoop l := by
  unfold tripleFixLoop
  have key : ∀ f1 f2 l, inversions l < f1 → inversions l < f2 →
      fixIter f1 l = fixIter f2 l := by
    intro f1
    induction f1 with
    | zero => intro f2 l h1; omega
    | succ n ih =>
      intro f2 l h1 h2
      rcases f2 with _ | m
      · omega
      have he1 : fixIter (n + 1) l =
          if (fixCycle l).2 then fixIter n (fixCycle l).1 else (fixCycle l).1 := by
        simp [fixIter]
      have he2 : fixIter (m + 1) l =
          if (fixCycle l).2 then fixIter m (fixCycle l).1 else (fixCycle l).1 := by
        simp [fixIter]
      rw [he1, he2]
      obtain ⟨-, ci, -⟩ := fixCycle_spec l
      cases hc : (fixCycle l).2 with
      | true =>
        rw [hc] at ci
        simp only [eq_self_iff_true, if_true] at ci ⊢
        exact ih m (fixCycle l).1 (by omega) (by omega)
      | false => simp
  exact key fuel (inversions l + 1) l h (by omega)

theorem tripleFixLoop_perm (l : List Int) : List.Perm (tripleFixLoop l) l :=
  fixIter_perm _ l

theorem tripleFixLoop_sorted (l : List Int) (hl : 3 ≤ l.length) :
    List.Sorted (· ≤ ·) (tripleFixLoop l) := by
  have hfix : (fixCycle (tripleFixLoop l)).2 = false :=
    fixIter_fix (inversions l + 1) l (by omega)
  have hlen : (tripleFixLoop l).length = l.length := (tripleFixLoop_perm l).length_eq
  exact fixCycle_flag_false_sorted _ (by omega) hfix

theorem inversions_eq_zero_of_sorted {l : List Int} (h : List.Sorted (· ≤ ·) l) :
    inversions l = 0 := by
  induction l with
  | nil => rfl
  | cons a r ih =>
    rw [inversions_cons]
    have h1 : r.countP (fun x => decide (x < a)) = 0 := by
      rw [List.countP_eq_zero]
      intro x hx
      have := List.rel_of_sorted_cons h x hx
      simpa using by omega
    rw [h1, ih h.of_cons]

theorem tripleFixLoop_of_sorted {l : List Int} (h : List.Sorted (· ≤ ·) l) :
    tripleFixLoop l = l := by
  have h0 : inversions l = 0 := inversions_eq_zero_of_sorted h
  unfold tripleFixLoop
  rw [h0]
  have he : fixIter 1 l = if (fixCycle l).2 then fixIter 0 (fixCycle l).1 else (fixCycle l).1 := by
    simp [fixIter]
  rw [he]
  obtain ⟨-, ci, ce⟩ := fixCycle_spec l
  cases hc : (fixCycle l).2 with
  | true =>
    rw [hc] at ci
    simp only [eq_self_iff_true, if_true] at ci ⊢
    exfalso
    omega
  | false =>
    simp only [Bool.false_eq_true, if_false]
    exact ce hc

theorem sorted_of_length_le_one {l : List Int} (h : l.length ≤ 1) :
    List.Sorted (· ≤ ·) l := by
  rcases l with _ | ⟨a, _ | ⟨b, r⟩⟩
  · simp
  · simp
  · simp at h

theorem take_set_of_le (l : List Int) (i n : Nat) (v : Int) (h : n ≤ i) :
    (l.set i v).take n = l.take n := by
  apply List.ext_getElem
  · simp
  · intro k h1 h2
    rw [List.getElem_take, List.getElem_take, List.getElem_set]
    have hk : k < n := by
      simp [List.length_take] at h1
      omega
    rw [if_neg (by omega)]

theorem slice_length (arr : List Int) (s e : Nat) (h : e < arr.length) :
    (slice arr s e).length = e + 1 - s := by
  simp [slice]
  omega

theorem slice_two (arr : List Int) (s : Nat) (h : s + 1 < arr.length) :
    slice arr s (s + 1) = [arr.getD s 0, arr.getD (s + 1) 0] := by
  unfold slice
  have h2 : s + 1 + 1 - s = 2 := by omega
  rw [h2, List.drop_eq_getElem_cons (by omega : s < arr.length),
    List.drop_eq_getElem_cons (by omega : s + 1 < arr.length),
    List.getD_eq_getElem arr 0 (by omega : s < arr.length),
    List.getD_eq_getElem arr 0 h]
  rfl

/-- Full correctness of the bidirectional fix pass on an in-bounds range:
the subrange is replaced by a sorted permutation of itself, everything
outside the subrange is untouched, and `start ≥ end` is a no-op. -/
theorem alpayTripleFixBidirectional_spec (arr : List Int) (s e : Nat)
    (hbound : e < arr.length) :
    List.Perm (slice (alpayTripleFixBidirectional arr s e) s e) (slice arr s e) ∧
    List.Sorted (· ≤ ·) (slice (alpayTripleFixBidirectional arr s e) s e) ∧
    (alpayTripleFixBidirectional arr s e).take s = arr.take s ∧
    (alpayTripleFixBidirectional arr s e).drop (e + 1) = arr.drop (e + 1) ∧
    (e ≤ s → alpayTripleFixBidirectional arr s e = arr) := by
  by_cases h1 : e ≤ s
  · unfold alpayTripleFixBidirectional
    rw [if_pos h1]
    refine ⟨List.Perm.refl _, ?_, rfl, rfl, fun _ => rfl⟩
    apply sorted_of_length_le_one
    rw [slice_length arr s e hbound]
    omega
  · by_cases h2 : e = s + 1
    · subst h2
      unfold alpayTripleFixBidirectional
      rw [if_neg h1, if_pos rfl]
      by_cases h3 : arr.getD (s + 1) 0 < arr.getD s 0
      · rw [if_pos h3]
        have hs1 : s + 1 < arr.length := hbound
        have hlen : ((arr.set s (arr.getD (s + 1) 0)).set (s + 1) (arr.getD s 0)).length =
            arr.length := by simp
        have hsl : slice ((arr.set s (arr.getD (s + 1) 0)).set (s + 1) (arr.getD s 0)) s (s + 1)
            = [arr.getD (s + 1) 0, arr.getD s 0] := by
          rw [slice_two _ s (by rw [hlen]; omega)]
          congr 1
          · rw [List.getD_eq_getElem _ 0 (by rw [hlen]; omega), List.getElem_set,
              if_neg (by omega), List.getElem_set, if_pos rfl]
          · congr 1
            rw [List.getD_eq_getElem _ 0 (by rw [hlen]; omega), List.getElem_set, if_pos rfl]
        rw [hsl, slice_two arr s hs1]
        refine ⟨List.Perm.swap _ _ _, ?_, ?_, ?_, fun hc => by omega⟩
        · have h4 : arr.getD (s + 1) 0 ≤ arr.getD s 0 := le_of_lt h3
          exact List.sorted_cons.mpr ⟨by simpa using h4, by simp⟩
        · rw [take_set_of_le _ _ _ _ (by omega), take_set_of_le _ _ _ _ (by omega)]
        · rw [List.drop_set, if_pos (by omega), List.drop_set, if_pos (by omega)]
      · rw [if_neg h3]
        refine ⟨List.Perm.refl _, ?_, rfl, rfl, fun hc => by omega⟩
        rw [slice_two arr s hbound]
        have h4 : arr.getD s 0 ≤ arr.getD (s + 1) 0 := by omega
        exact List.sorted_cons.mpr ⟨by simpa using h4, by simp⟩
    · unfold alpayTripleFixBidirectional
      rw [if_neg h1, if_neg h2]
      have hsl : (slice arr s e).length = e + 1 - s := slice_length arr s e hbound
      have hlenm : (tripleFixLoop (slice arr s e)).length = e + 1 - s := by
        rw [(tripleFixLoop_perm (slice arr s e)).length_eq, hsl]
      have htake : (arr.take s).length = s := by
        simp
        omega
      have hmid : slice (arr.take s ++ tripleFixLoop (slice arr s e) ++ arr.drop (e + 1)) s e
          = tripleFixLoop (slice arr s e) := by
        unfold slice
        rw [List.append_assoc, List.drop_left' htake]
        exact List.take_left' hlenm
      refine ⟨?_, ?_, ?_, ?_, fun hc => absurd hc h1⟩
      · rw [hmid]
        exact tripleFixLoop_perm _
      · rw [hmid]
        exact tripleFixLoop_sorted _ (by rw [hsl]; omega)
      · rw [List.append_assoc]
        exact List.take_left' htake
      · exact List.drop_left' (by rw [List.length_append, htake, hlenm]; omega)

/-- `alpayTripleSortPivotArray` sorts any whole list: the result is a sorted
permutation of the input. -/
theorem alpayTripleSortPivotArray_spec (l : List Int) :
    List.Perm (alpayTripleSortPivotArray l) l ∧
    List.Sorted (· ≤ ·) (alpayTripleSortPivotArray l) := by
  unfold alpayTripleSortPivotArray
  rcases hl : l with _ | ⟨a, _ | ⟨b, _ | ⟨c, r⟩⟩⟩
  · exact ⟨List.Perm.refl _, by simp [alpayTripleFixBidirectional]⟩
  · exact ⟨List.Perm.refl _, by simp [alpayTripleFixBidirectional]⟩
  · have hL : ([a, b] : List Int).length - 1 = 1 := rfl
    rw [hL]
    unfold alpayTripleFixBidirectional
    rw [if_neg (by omega), if_pos (by norm_num)]
    by_cases h3 : ([a, b] : List Int).getD (0 + 1) 0 < ([a, b] : List Int).getD 0 0
    · rw [if_pos h3]
      simp [List.getD] at h3
      simp [List.getD, List.set]
      exact ⟨List.Perm.swap _ _ _, by omega⟩
    · rw [if_neg h3]
      simp [List.getD] at h3
      simp [h3]
  · have hlen : (a :: b :: c :: r).length - 1 = r.length + 2 := by simp
    rw [hlen]
    unfold alpayTripleFixBidirectional
    rw [if_neg (by omega), if_neg (by simp)]
    have hslice : slice (a :: b :: c :: r) 0 (r.length + 2) = a :: b :: c :: r := by
      unfold slice
      simp
    rw [hslice]
    have hdrop : (a :: b :: c :: r).drop (r.length + 2 + 1) = [] := by
      apply List.drop_eq_nil_of_le
      simp
    rw [hdrop]
    simp only [List.take_zero, List.nil_append, List.append_nil]
    exact ⟨tripleFixLoop_perm _, tripleFixLoop_sorted _ (by simp)⟩

theorem alpayTripleSortPivotArray_of_sorted {l : List Int}
    (h : List.Sorted (· ≤ ·) l) : alpayTripleSortPivotArray l = l :=
  List.eq_of_perm_of_sorted (alpayTripleSortPivotArray_spec l).1
    (alpayTripleSortPivotArray_spec l).2 h

theorem popMin_eq_none {h : List HeapItem} (hp : popMin h = none) : h = [] := by
  cases h with
  | nil => rfl
  | cons a t =>
    exfalso
    simp only [popMin] at hp
    cases ht : popMin t with
    | none => rw [ht] at hp; simp at hp
    | some pr =>
      obtain ⟨q, qr⟩ := pr
      rw [ht] at hp
      dsimp only at hp
      by_cases hle : a.value ≤ q.value
      · rw [if_pos hle] at hp; simp at hp
      · rw [if_neg hle] at hp; simp at hp

theorem popMin_perm {h : List HeapItem} {m : HeapItem} {rest : List HeapItem}
    (hp : popMin h = some (m, rest)) : List.Perm (m :: rest) h := by
  induction h generalizing m rest with
  | nil => simp [popMin] at hp
  | cons a t ih =>
    simp only [popMin] at hp
    cases ht : popMin t with
    | none =>
      have := popMin_eq_none ht
      subst this
      rw [ht] at hp
      dsimp only at hp
      simp at hp
      obtain ⟨rfl, rfl⟩ := hp
      exact List.Perm.refl _
    | some pr =>
      obtain ⟨q, qr⟩ := pr
      rw [ht] at hp
      dsimp only at hp
      by_cases hle : a.value ≤ q.value
      · rw [if_pos hle] at hp
        simp at hp
        obtain ⟨rfl, rfl⟩ := hp
        exact List.Perm.refl _
      · rw [if_neg hle] at hp
        simp at hp
        have hper := @ih q qr ht
        obtain ⟨rfl, rfl⟩ := hp
        exact List.Perm.trans (List.Perm.swap _ _ _) (hper.cons a)

theorem popMin_min {h : List HeapItem} {m : HeapItem} {rest : List HeapItem}
    (hp : popMin h = some (m, rest)) : ∀ x ∈ h, m.value ≤ x.value := by
  induction h generalizing m rest with
  | nil => simp [popMin] at hp
  | cons a t ih =>
    simp only [popMin] at hp
    cases ht : popMin t with
    | none =>
      have := popMin_eq_none ht
      subst this
      rw [ht] at hp
      dsimp only at hp
      simp at hp
      obtain ⟨rfl, rfl⟩ := hp
      intro x hx
      simp at hx
      subst hx
      exact le_refl _
    | some pr =>
      obtain ⟨q, qr⟩ := pr
      rw [ht] at hp
      dsimp only at hp
      by_cases hle : a.value ≤ q.value
      · rw [if_pos hle] at hp
        simp at hp
        obtain ⟨rfl, rfl⟩ := hp
        intro x hx
        rcases List.mem_cons.mp hx with hx | hx
        · subst hx; exact le_refl _
        · exact le_trans hle (@ih q qr ht x hx)
      · rw [if_neg hle] at hp
        simp at hp
        obtain ⟨rfl, rfl⟩ := hp
        intro x hx
        rcases List.mem_cons.mp hx with hx | hx
        · subst hx; omega
        · exact @ih q qr ht x hx

theorem sorted_getD_le {l : List Int} (h : List.Sorted (· ≤ ·) l) {i j : Nat}
    (hij : i ≤ j) (hj : j < l.length) : l.getD i 0 ≤ l.getD j 0 := by
  rcases Nat.eq_or_lt_of_le hij with rfl | hlt
  · exact le_refl _
  · have hrel := h.rel_get_of_lt (a := ⟨i, by omega⟩) (b := ⟨j, hj⟩) (by simpa using hlt)
    rw [List.getD_eq_getElem l 0 (by omega), List.getD_eq_getElem l 0 hj]
    simpa using hrel

theorem heapMeasure_perm (B : List (List Int)) {h1 h2 : List HeapItem}
    (hp : List.Perm h1 h2) : heapMeasure B h1 = heapMeasure B h2 :=
  (hp.map _).sum_eq

theorem heapContents_perm (B : List (List Int)) {h1 h2 : List HeapItem}
    (hp : List.Perm h1 h2) : heapContents B h1 = heapContents B h2 :=
  (hp.map _).sum_eq

theorem mergeLoop_spec (B : List (List Int))
    (hB : ∀ b : Nat, List.Sorted (· ≤ ·) (B.getD b [])) :
    ∀ (fuel : Nat) (heap : List HeapItem) (acc : List Int),
    (∀ m ∈ heap, m.iIndex < (B.getD m.bIndex []).length ∧
        m.value = (B.getD m.bIndex []).getD m.iIndex 0) →
    heapMeasure B heap ≤ fuel →
    List.Sorted (· ≤ ·) acc →
    (∀ x ∈ acc, ∀ m ∈ heap, x ≤ m.value) →
    (↑(mergeLoop B fuel heap acc) : Multiset Int) = ↑acc + heapContents B heap ∧
    List.Sorted (· ≤ ·) (mergeLoop B fuel heap acc) := by
  intro fuel
  induction fuel with
  | zero =>
    intro heap acc hv hm hs hbd
    cases heap with
    | nil =>
      refine ⟨?_, by simpa [mergeLoop] using hs⟩
      simp [mergeLoop, heapContents]
    | cons m t =>
      exfalso
      have h1 := (hv m (by simp)).1
      have h2 : 1 ≤ heapMeasure B (m :: t) := by
        unfold heapMeasure
        simp only [List.map_cons, List.sum_cons]
        omega
      omega
  | succ n ih =>
    intro heap acc hv hm hs hbd
    cases hp : popMin heap with
    | none =>
      have hnil := popMin_eq_none hp
      subst hnil
      have heq : mergeLoop B (n + 1) [] acc = acc := by
        simp only [mergeLoop]
        rw [hp]
      rw [heq]
      refine ⟨?_, hs⟩
      simp [heapContents]
    | some pr =>
      obtain ⟨m, rest⟩ := pr
      have heq : mergeLoop B (n + 1) heap acc =
          mergeLoop B n
            (if m.iIndex + 1 < (B.getD m.bIndex []).length then
              (⟨(B.getD m.bIndex []).getD (m.iIndex + 1) 0, m.bIndex, m.iIndex + 1⟩ : HeapItem)
                :: rest
            else rest)
            (acc ++ [m.value]) := by
        simp only [mergeLoop]
        rw [hp]
      rw [heq]
      have hperm : List.Perm (m :: rest) heap := popMin_perm hp
      have hmem : m ∈ heap := hperm.mem_iff.mp (by simp)
      have hvm := hv m hmem
      have hmin := popMin_min hp
      have hrest_sub : ∀ x ∈ rest, x ∈ heap := fun x hx => hperm.mem_iff.mp (by simp [hx])
      have hmeas : heapMeasure B heap = heapMeasure B (m :: rest) :=
        (heapMeasure_perm B hperm).symm
      have hcont : heapContents B heap = heapContents B (m :: rest) :=
        (heapContents_perm B hperm).symm
      have hmeas2 : heapMeasure B (m :: rest) =
          ((B.getD m.bIndex []).length - m.iIndex) + heapMeasure B rest := by
        unfold heapMeasure
        simp only [List.map_cons, List.sum_cons]
      have hdropm : remainingOf B m = m.value :: (B.getD m.bIndex []).drop (m.iIndex + 1) := by
        unfold remainingOf
        rw [List.drop_eq_getElem_cons hvm.1]
        congr 1
        exact ((hvm.2).trans (List.getD_eq_getElem _ 0 hvm.1)).symm
      have hsorted_app : List.Sorted (· ≤ ·) (acc ++ [m.value]) := by
        refine List.pairwise_append.mpr ⟨hs, by simp, ?_⟩
        intro x hx y hy
        simp only [List.mem_singleton] at hy
        subst hy
        exact hbd x hx m hmem
      by_cases hni : m.iIndex + 1 < (B.getD m.bIndex []).length
      · rw [if_pos hni]
        have hvle : m.value ≤ (B.getD m.bIndex []).getD (m.iIndex + 1) 0 := by
          rw [hvm.2]
          exact sorted_getD_le (hB m.bIndex) (by omega) hni
        have hvalid : ∀ x ∈ (⟨(B.getD m.bIndex []).getD (m.iIndex + 1) 0, m.bIndex,
            m.iIndex + 1⟩ : HeapItem) :: rest,
            x.iIndex < (B.getD x.bIndex []).length ∧
            x.value = (B.getD x.bIndex []).getD x.iIndex 0 := by
          intro x hx
          rcases List.mem_cons.mp hx with hx | hx
          · subst hx
            exact ⟨hni, rfl⟩
          · exact hv x (hrest_sub x hx)
        have hmeas3 : heapMeasure B ((⟨(B.getD m.bIndex []).getD (m.iIndex + 1) 0, m.bIndex,
            m.iIndex + 1⟩ : HeapItem) :: rest) ≤ n := by
          rw [hmeas, hmeas2] at hm
          unfold heapMeasure at hm ⊢
          simp only [List.map_cons, List.sum_cons]
          have := hvm.1
          omega
        have hbd2 : ∀ x ∈ acc ++ [m.value],
            ∀ m' ∈ (⟨(B.getD m.bIndex []).getD (m.iIndex + 1) 0, m.bIndex,
              m.iIndex + 1⟩ : HeapItem) :: rest, x ≤ m'.value := by
          intro x hx m' hm'
          rcases List.mem_append.mp hx with hx | hx
          · rcases List.mem_cons.mp hm' with hm' | hm'
            · subst hm'
              exact le_trans (hbd x hx m hmem) hvle
            · exact hbd x hx m' (hrest_sub m' hm')
          · simp only [List.mem_singleton] at hx
            subst hx
            rcases List.mem_cons.mp hm' with hm' | hm'
            · subst hm'
              exact hvle
            · exact hmin m' (hrest_sub m' hm')
        obtain ⟨ihm, ihs⟩ := ih _ (acc ++ [m.value]) hvalid hmeas3 hsorted_app hbd2
        refine ⟨?_, ihs⟩
        rw [ihm, hcont]
        simp only [heapContents, List.map_cons, List.sum_cons]
        rw [show remainingOf B (⟨(B.getD m.bIndex []).getD (m.iIndex + 1) 0, m.bIndex,
          m.iIndex + 1⟩ : HeapItem) = (B.getD m.bIndex []).drop (m.iIndex + 1) from rfl]
        rw [hdropm]
        simp only [← Multiset.coe_add, ← Multiset.cons_coe, ← Multiset.singleton_add,
          Multiset.coe_nil, add_zero]
        abel
      · rw [if_neg hni]
        have hdropm2 : remainingOf B m = [m.value] := by
          rw [hdropm]
          have : (B.getD m.bIndex []).drop (m.iIndex + 1) = [] :=
            List.drop_eq_nil_of_le (by omega)
          rw [this]
        have hvalid : ∀ x ∈ rest,
            x.iIndex < (B.getD x.bIndex []).length ∧
            x.value = (B.getD x.bIndex []).getD x.iIndex 0 :=
          fun x hx => hv x (hrest_sub x hx)
        have hmeas3 : heapMeasure B rest ≤ n := by
          rw [hmeas, hmeas2] at hm
          have := hvm.1
          omega
        have hbd2 : ∀ x ∈ acc ++ [m.value], ∀ m' ∈ rest, x ≤ m'.value := by
          intro x hx m' hm'
          rcases List.mem_append.mp hx with hx | hx
          · exact hbd x hx m' (hrest_sub m' hm')
          · simp only [List.mem_singleton] at hx
            subst hx
            exact hmin m' (hrest_sub m' hm')
        obtain ⟨ihm, ihs⟩ := ih rest (acc ++ [m.value]) hvalid hmeas3 hsorted_app hbd2
        refine ⟨?_, ihs⟩
        rw [ihm, hcont]
        simp only [heapContents, List.map_cons, List.sum_cons]
        rw [hdropm2]
        simp only [← Multiset.coe_add, ← Multiset.cons_coe, ← Multiset.singleton_add,
          Multiset.coe_nil, add_zero]
        abel

theorem initHeap_aux (B : List (List Int)) :
    ∀ (L : List (List Int)) (b0 : Nat), B.drop b0 = L →
    (∀ m ∈ initHeap b0 L, m.iIndex < (B.getD m.bIndex []).length ∧
        m.value = (B.getD m.bIndex []).getD m.iIndex 0) ∧
    heapMeasure B (initHeap b0 L) = (L.map List.length).sum ∧
    heapContents B (initHeap b0 L) = bucketsContents L := by
  intro L
  induction L with
  | nil =>
    intro b0 _
    refine ⟨by simp [initHeap], ?_, ?_⟩
    · simp [initHeap, heapMeasure]
    · simp [initHeap, heapContents, bucketsContents]
  | cons bu rest ih =>
    intro b0 hd
    have hget : B.getD b0 [] = bu := by
      have h0 : B[b0]? = some bu := by
        have := List.getElem?_drop B b0 0
        rw [hd] at this
        simpa using this.symm
      rw [List.getD_eq_getElem?_getD, h0]
      rfl
    have hdrop : B.drop (b0 + 1) = rest := by
      have h1 : List.drop 1 (B.drop b0) = rest := by rw [hd]; rfl
      rw [List.drop_drop] at h1
      exact h1
    obtain ⟨ihv, ihm, ihc⟩ := ih (b0 + 1) hdrop
    cases hbu : bu with
    | nil =>
      rw [hbu] at hget
      have he : initHeap b0 ([] :: rest) = initHeap (b0 + 1) rest := rfl
      rw [he]
      refine ⟨ihv, ?_, ?_⟩
      · rw [ihm]
        simp
      · rw [ihc]
        show bucketsContents rest = bucketsContents ([] :: rest)
        unfold bucketsContents
        simp
    | cons x xs =>
      rw [hbu] at hget
      have he : initHeap b0 ((x :: xs) :: rest) =
          (⟨x, b0, 0⟩ : HeapItem) :: initHeap (b0 + 1) rest := rfl
      rw [he]
      refine ⟨?_, ?_, ?_⟩
      · intro m hm
        rcases List.mem_cons.mp hm with hm | hm
        · subst hm
          refine ⟨?_, ?_⟩
          · show 0 < (B.getD b0 []).length
            rw [hget]
            simp
          · show x = (B.getD b0 []).getD 0 0
            rw [hget]
            rfl
        · exact ihv m hm
      · unfold heapMeasure at ihm ⊢
        simp only [List.map_cons, List.sum_cons]
        rw [ihm, hget]
        simp
      · unfold heapContents at ihc ⊢
        simp only [List.map_cons, List.sum_cons]
        rw [ihc]
        show ↑(remainingOf B ⟨x, b0, 0⟩) + bucketsContents rest = bucketsContents ((x :: xs) :: rest)
        unfold bucketsContents
        simp only [List.map_cons, List.sum_cons]
        simp only [remainingOf, hget, List.drop_zero]

theorem card_bucketsContents (L : List (List Int)) :
    Multiset.card (bucketsContents L) = (L.map List.length).sum := by
  induction L with
  | nil => simp [bucketsContents]
  | cons bu rest ih =>
    unfold bucketsContents at ih ⊢
    simp only [List.map_cons, List.sum_cons, Multiset.card_add, Multiset.coe_card]
    rw [ih]

/-- `alpayMultiBucketMerge` of sorted buckets: the output is the sorted list
holding exactly the multiset union of all buckets, whatever the initial
contents of `dest`; its length is the sum of the bucket lengths. -/
theorem alpayMultiBucketMerge_spec (buckets : List (List Int)) (dest : List Int)
    (hb : ∀ bu ∈ buckets, List.Sorted (· ≤ ·) bu) :
    (↑(alpayMultiBucketMerge buckets dest) : Multiset Int) = bucketsContents buckets ∧
    List.Sorted (· ≤ ·) (alpayMultiBucketMerge buckets dest) ∧
    (alpayMultiBucketMerge buckets dest).length = (buckets.map List.length).sum := by
  have hB : ∀ b : Nat, List.Sorted (· ≤ ·) (buckets.getD b []) := by
    intro b
    by_cases hlt : b < buckets.length
    · rw [List.getD_eq_getElem _ _ hlt]
      exact hb _ (List.getElem_mem hlt)
    · rw [List.getD_eq_default _ _ (by omega)]
      simp
  obtain ⟨hv, hm, hc⟩ := initHeap_aux buckets buckets 0 (by simp)
  obtain ⟨hmul, hsorted⟩ := mergeLoop_spec buckets hB ((buckets.map List.length).sum)
    (initHeap 0 buckets) [] hv (by rw [hm]) (by simp) (by simp)
  have hrun : alpayMultiBucketMerge buckets dest =
      mergeLoop buckets ((buckets.map List.length).sum) (initHeap 0 buckets) [] := rfl
  rw [hrun]
  rw [hc] at hmul
  have hmul2 : (↑(mergeLoop buckets ((buckets.map List.length).sum) (initHeap 0 buckets) [])
      : Multiset Int) = bucketsContents buckets := by
    rw [hmul]
    simp
  refine ⟨hmul2, hsorted, ?_⟩
  have hcard := congrArg Multiset.card hmul2
  rw [Multiset.coe_card] at hcard
  rw [hcard]
  exact card_bucketsContents buckets

theorem bucketIndexOf_le (pivots : List Int) (x : Int) :
    bucketIndexOf pivots x ≤ pivots.length := by
  unfold bucketIndexOf
  induction pivots with
  | nil => simp
  | cons a t ih =>
    rw [List.takeWhile_cons]
    cases hd : decide (a ≤ x) with
    | true => simpa using ih
    | false => simp

theorem takeWhile_getD_true (p : Int → Bool) :
    ∀ (l : List Int) (j : Nat), j < (l.takeWhile p).length → p (l.getD j 0) = true := by
  intro l
  induction l with
  | nil => simp
  | cons a t ih =>
    intro j hj
    rw [List.takeWhile_cons] at hj
    cases hp : p a with
    | false => rw [hp] at hj; simp at hj
    | true =>
      rw [hp] at hj
      simp only [if_pos, List.length_cons] at hj
      cases j with
      | zero => simpa using hp
      | succ k =>
        have hk : k < (t.takeWhile p).length := by
          simp at hj
          omega
        simpa using ih k hk

theorem takeWhile_getD_false (p : Int → Bool) :
    ∀ (l : List Int), (l.takeWhile p).length < l.length →
      p (l.getD (l.takeWhile p).length 0) = false := by
  intro l
  induction l with
  | nil => simp
  | cons a t ih =>
    intro hl
    cases hp : p a with
    | false =>
      rw [List.takeWhile_cons, hp] at hl ⊢
      simpa using hp
    | true =>
      rw [List.takeWhile_cons, hp] at hl ⊢
      simp only [if_pos, List.length_cons] at hl ⊢
      have hlt : (t.takeWhile p).length < t.length := by
        simp at hl
        omega
      simpa using ih hlt

theorem countP_eq_bucketIndexOf (x : Int) {pivots : List Int}
    (h : List.Sorted (· ≤ ·) pivots) :
    pivots.countP (fun v => decide (v ≤ x)) = bucketIndexOf pivots x := by
  induction pivots with
  | nil => rfl
  | cons a t ih =>
    unfold bucketIndexOf at ih ⊢
    rw [List.countP_cons, List.takeWhile_cons]
    cases ha : decide (a ≤ x) with
    | true =>
      simp only [eq_self_iff_true, if_true, List.length_cons]
      rw [ih h.of_cons]
    | false =>
      simp only [Bool.false_eq_true, if_false, List.length_nil]
      have hxa : x < a := by
        have := of_decide_eq_false ha
        omega
      have hz : t.countP (fun v => decide (v ≤ x)) = 0 := by
        rw [List.countP_eq_zero]
        intro v hv
        have hav := List.rel_of_sorted_cons h v hv
        simp only [decide_eq_true_eq]
        omega
      omega

theorem getD_set_self (bs : List (List Int)) (k : Nat) (v : List Int) (hk : k < bs.length) :
    (bs.set k v).getD k [] = v := by
  rw [List.getD_eq_getElem _ _ (by simpa using hk), List.getElem_set, if_pos rfl]

theorem getD_set_ne (bs : List (List Int)) (k b : Nat) (v : List Int) (hbk : k ≠ b) :
    (bs.set k v).getD b [] = bs.getD b [] := by
  by_cases hb : b < bs.length
  · rw [List.getD_eq_getElem _ _ (by simpa using hb), List.getD_eq_getElem _ _ hb,
      List.getElem_set, if_neg hbk]
  · rw [List.getD_eq_default _ _ (by simp; omega), List.getD_eq_default _ _ (by omega)]

theorem map_range_getD (bs : List (List Int)) :
    (List.range bs.length).map (fun b => bs.getD b []) = bs := by
  apply List.ext_getElem
  · simp
  · intro k h1 h2
    simp only [List.getElem_map, List.getElem_range]
    rw [List.getD_eq_getElem _ _ h2]

theorem foldl_appendAt (pivots : List Int) :
    ∀ (xs : List Int) (bs0 : List (List Int)), bs0.length = pivots.length + 1 →
    xs.foldl (fun bs x => appendAt (bucketIndexOf pivots x) x bs) bs0
      = (List.range (pivots.length + 1)).map
          (fun b => bs0.getD b [] ++ xs.filter (fun x => decide (bucketIndexOf pivots x = b))) := by
  intro xs
  induction xs with
  | nil =>
    intro bs0 hlen
    simp only [List.foldl_nil, List.filter_nil, List.append_nil]
    rw [← hlen]
    exact (map_range_getD bs0).symm
  | cons x xs ih =>
    intro bs0 hlen
    rw [List.foldl_cons]
    rw [ih (appendAt (bucketIndexOf pivots x) x bs0) (by simp [appendAt]; omega)]
    apply List.map_congr_left
    intro b hb
    simp only [List.mem_range] at hb
    have hk : bucketIndexOf pivots x < bs0.length := by
      have := bucketIndexOf_le pivots x
      omega
    by_cases hbk : bucketIndexOf pivots x = b
    · subst hbk
      rw [show appendAt (bucketIndexOf pivots x) x bs0
          = bs0.set (bucketIndexOf pivots x) (bs0.getD (bucketIndexOf pivots x) [] ++ [x])
          from rfl]
      rw [getD_set_self _ _ _ hk]
      rw [List.filter_cons_of_pos (by simp)]
      simp
    · rw [show appendAt (bucketIndexOf pivots x) x bs0
          = bs0.set (bucketIndexOf pivots x) (bs0.getD (bucketIndexOf pivots x) [] ++ [x])
          from rfl]
      rw [getD_set_ne _ _ _ _ hbk]
      rw [List.filter_cons_of_neg (by simp [hbk])]

theorem distribute_eq_filter (pivots : List Int) (xs : List Int) :
    distribute pivots xs = (List.range (pivots.length + 1)).map
      (fun b => xs.filter (fun x => decide (bucketIndexOf pivots x = b))) := by
  unfold distribute
  rw [foldl_appendAt pivots xs (List.replicate (pivots.length + 1) []) (by simp)]
  apply List.map_congr_left
  intro b hb
  simp only [List.mem_range] at hb
  rw [List.getD_eq_getElem _ _ (by simpa using hb)]
  simp

theorem distribute_length (pivots : List Int) (xs : List Int) :
    (distribute pivots xs).length = pivots.length + 1 := by
  rw [distribute_eq_filter]
  simp

theorem sum_range_single (f : Nat → Nat) :
    ∀ (n k : Nat), k < n → (∀ b, b < n → b ≠ k → f b = 0) →
    ((List.range n).map f).sum = f k := by
  intro n
  induction n with
  | zero => intro k hk; omega
  | succ m ih =>
    intro k hk hz
    rw [List.range_succ, List.map_append, List.sum_append]
    by_cases hkm : k = m
    · subst hkm
      have h0 : ((List.range k).map f).sum = 0 := by
        apply List.sum_eq_zero
        intro y hy
        simp only [List.mem_map, List.mem_range] at hy
        obtain ⟨b, hb, rfl⟩ := hy
        exact hz b (by omega) (by omega)
      rw [h0]
      simp
    · have hfm : f m = 0 := hz m (by omega) (by omega)
      rw [ih k (by omega) (fun b hb hbk => hz b (by omega) hbk)]
      simp [hfm]

theorem distribute_flatten_perm (pivots : List Int) (xs : List Int) :
    List.Perm (distribute pivots xs).flatten xs := by
  rw [distribute_eq_filter]
  rw [List.perm_iff_count]
  intro y
  rw [List.count_flatten, List.map_map]
  have hidx : bucketIndexOf pivots y < pivots.length + 1 := by
    have := bucketIndexOf_le pivots y
    omega
  rw [sum_range_single _ (pivots.length + 1) (bucketIndexOf pivots y) hidx ?_]
  · exact List.count_filter (by simp)
  · intro b hb hbk
    simp only [Function.comp_apply]
    rw [List.count_eq_zero]
    intro hy
    rw [List.mem_filter] at hy
    have h2 := hy.2
    simp only [decide_eq_true_eq] at h2
    exact hbk h2.symm

theorem distribute_getD (pivots : List Int) (xs : List Int) (b : Nat)
    (hb : b < pivots.length + 1) :
    (distribute pivots xs).getD b []
      = xs.filter (fun x => decide (bucketIndexOf pivots x = b)) := by
  rw [distribute_eq_filter]
  rw [List.getD_eq_getElem _ _ (by simpa using hb)]
  simp

theorem mem_distribute_iff (pivots : List Int) (xs : List Int) (b : Nat)
    (hb : b < pivots.length + 1) (x : Int) :
    x ∈ (distribute pivots xs).getD b [] ↔ x ∈ xs ∧ bucketIndexOf pivots x = b := by
  rw [distribute_getD pivots xs b hb, List.mem_filter]
  simp

theorem sampleCountOf_eq (size : Nat) : sampleCountOf size = 2 * pivotCountOf size := by
  unfold sampleCountOf
  exact Nat.max_eq_right (by omega)

theorem pivotCountOf_ge_two (size : Nat) : 2 ≤ pivotCountOf size :=
  le_max_left _ _

/-- The trim guard `cut*2 < samples.size() - pivotCount` always holds with the
source constants (`cut ≤ 0.3·pivotCount` while the slack is `pivotCount`), so
the outlier trim always fires. -/
theorem trim_guard (size : Nat) (samples : List Int)
    (hlen : samples.length = sampleCountOf size) :
    2 * cutOf samples.length < samples.length - pivotCountOf size := by
  have hp2 := pivotCountOf_ge_two size
  rw [hlen, sampleCountOf_eq]
  unfold cutOf
  omega

theorem trimSamples_length (size : Nat) (samples : List Int)
    (hlen : samples.length = sampleCountOf size) :
    (trimSamples (pivotCountOf size) samples).length
      = samples.length - 2 * cutOf samples.length := by
  unfold trimSamples
  rw [if_pos (trim_guard size samples hlen)]
  simp
  omega

/-- In-bounds property of the pivot-stride selection (§9 edge case): after the
trim the sample vector still holds at least `pivotCount` entries, and every
index `i * step` read by the pivot-selection loop is strictly below its
length. -/
theorem pivot_stride_in_bounds (size : Nat) (samples : List Int)
    (hsize : ALPAY_SMALL_THRESH < size)
    (hlen : samples.length = sampleCountOf size) :
    pivotCountOf size ≤ (trimSamples (pivotCountOf size) samples).length ∧
    ∀ i < pivotCountOf size,
      i * stepOf (trimSamples (pivotCountOf size) samples).length (pivotCountOf size)
        < (trimSamples (pivotCountOf size) samples).length := by
  have hp2 := pivotCountOf_ge_two size
  have hm := trimSamples_length size samples hlen
  rw [hlen, sampleCountOf_eq] at hm
  have hguard := trim_guard size samples hlen
  rw [hlen, sampleCountOf_eq] at hguard
  set p := pivotCountOf size with hp
  set c := cutOf (2 * p) with hc
  have hple : p ≤ (trimSamples p samples).length := by omega
  refine ⟨hple, ?_⟩
  intro i hi
  by_cases hc0 : c = 0
  · have hm2 : (trimSamples p samples).length = 2 * p := by omega
    have hdiv : (trimSamples p samples).length / p = 2 := by
      apply Nat.div_eq_of_lt_le
      · omega
      · omega
    unfold stepOf
    rw [hdiv]
    have : max 1 2 = 2 := rfl
    rw [this]
    omega
  · have hm2 : (trimSamples p samples).length < 2 * p := by omega
    have hdiv : (trimSamples p samples).length / p = 1 := by
      apply Nat.div_eq_of_lt_le
      · omega
      · omega
    unfold stepOf
    rw [hdiv]
    have : max 1 1 = 1 := rfl
    rw [this]
    omega

theorem bucketsContents_eq_coe_flatten (L : List (List Int)) :
    bucketsContents L = (↑L.flatten : Multiset Int) := by
  induction L with
  | nil => simp [bucketsContents]
  | cons bu rest ih =>
    unfold bucketsContents at ih ⊢
    simp only [List.map_cons, List.sum_cons, List.flatten_cons]
    rw [ih, Multiset.coe_add]

theorem forall₂_perm_contents {bs0 bs : List (List Int)}
    (h : List.Forall₂ (fun b b' => List.Perm b' b ∧ List.Sorted (· ≤ ·) b') bs0 bs) :
    bucketsContents bs = bucketsContents bs0 := by
  induction h with
  | nil => rfl
  | cons hr hrest ih =>
    unfold bucketsContents at ih ⊢
    simp only [List.map_cons, List.sum_cons]
    rw [ih, Multiset.coe_eq_coe.mpr hr.1]

theorem forall₂_sorted_right {bs0 bs : List (List Int)}
    (h : List.Forall₂ (fun b b' => List.Perm b' b ∧ List.Sorted (· ≤ ·) b') bs0 bs) :
    ∀ bu ∈ bs, List.Sorted (· ≤ ·) bu := by
  induction h with
  | nil => simp
  | cons hr hrest ih =>
    intro bu hbu
    rcases List.mem_cons.mp hbu with hbu | hbu
    · subst hbu; exact hr.2
    · exact ih bu hbu

theorem sortBuckets_nil (g : Nat → Nat) (fuel : Nat) (pos : Nat) :
    sortBuckets g fuel [] pos = some ([], pos) := by
  simp [sortBuckets]

theorem sortBuckets_cons (g : Nat → Nat) (fuel : Nat) (b : List Int)
    (rest : List (List Int)) (pos : Nat) :
    sortBuckets g fuel (b :: rest) pos =
      if 1 < b.length then
        match fractalCore g fuel b pos with
        | none => none
        | some (b', pos') =>
          match sortBuckets g fuel rest pos' with
          | none => none
          | some (bs, pos'') => some (b' :: bs, pos'')
      else
        match sortBuckets g fuel rest pos with
        | none => none
        | some (bs, pos') => some (b :: bs, pos') := by
  simp [sortBuckets]

theorem fractalCore_zero (g : Nat → Nat) (l : List Int) (pos : Nat) :
    fractalCore g 0 l pos = none := by
  simp [fractalCore]

theorem fractalCore_succ_small (g : Nat → Nat) (n : Nat) (l : List Int) (pos : Nat)
    (h : l.length ≤ ALPAY_SMALL_THRESH) :
    fractalCore g (n + 1) l pos = some (alpayTripleSortPivotArray l, pos) := by
  simp only [fractalCore]
  rw [if_pos h]

theorem fractalCore_succ_large (g : Nat → Nat) (n : Nat) (l : List Int) (pos : Nat)
    (h : ¬ l.length ≤ ALPAY_SMALL_THRESH) :
    fractalCore g (n + 1) l pos =
      match sortBuckets g n
          (distribute (alpayTripleSortPivotArray (pickPivots (pivotCountOf l.length)
            (trimSamples (pivotCountOf l.length)
              (alpayTripleSortPivotArray (drawSamples g pos l))))) l)
          (pos + sampleCountOf l.length) with
      | none => none
      | some (bs, pos') => some (alpayMultiBucketMerge bs [], pos') := by
  simp only [fractalCore]
  rw [if_neg h]

theorem sortBuckets_sound (g : Nat → Nat) (fuel : Nat)
    (hcore : ∀ (l : List Int) (pos : Nat) (r : List Int) (pos' : Nat),
      fractalCore g fuel l pos = some (r, pos') →
      List.Perm r l ∧ List.Sorted (· ≤ ·) r) :
    ∀ (bs : List (List Int)) (pos : Nat) (out : List (List Int)) (pos' : Nat),
      sortBuckets g fuel bs pos = some (out, pos') →
      List.Forall₂ (fun b b' => List.Perm b' b ∧ List.Sorted (· ≤ ·) b') bs out := by
  intro bs
  induction bs with
  | nil =>
    intro pos out pos' h
    rw [sortBuckets_nil] at h
    injection h with h1
    injection h1 with h2 h3
    rw [← h2]
    exact List.Forall₂.nil
  | cons b rest ih =>
    intro pos out pos' h
    rw [sortBuckets_cons] at h
    by_cases h1 : 1 < b.length
    · rw [if_pos h1] at h
      cases hc : fractalCore g fuel b pos with
      | none => rw [hc] at h; simp at h
      | some pr =>
        obtain ⟨b', q⟩ := pr
        rw [hc] at h
        dsimp only at h
        cases hs : sortBuckets g fuel rest q with
        | none => rw [hs] at h; simp at h
        | some qr =>
          obtain ⟨outr, q2⟩ := qr
          rw [hs] at h
          dsimp only at h
          injection h with h2
          injection h2 with h3 h4
          rw [← h3]
          exact List.Forall₂.cons (hcore b pos b' q hc) (ih q outr q2 hs)
    · rw [if_neg h1] at h
      cases hs : sortBuckets g fuel rest pos with
      | none => rw [hs] at h; simp at h
      | some qr =>
        obtain ⟨outr, q2⟩ := qr
        rw [hs] at h
        dsimp only at h
        injection h with h2
        injection h2 with h3 h4
        rw [← h3]
        refine List.Forall₂.cons ⟨List.Perm.refl _, sorted_of_length_le_one (by omega)⟩
          (ih pos outr q2 hs)

/-- Partial correctness of the recursive driver: every run that completes
within its depth budget returns a sorted permutation of its input. -/
theorem fractalCore_sound (g : Nat → Nat) :
    ∀ (fuel : Nat) (l : List Int) (pos : Nat) (r : List Int) (pos' : Nat),
      fractalCore g fuel l pos = some (r, pos') →
      List.Perm r l ∧ List.Sorted (· ≤ ·) r := by
  intro fuel
  induction fuel with
  | zero =>
    intro l pos r pos' h
    rw [fractalCore_zero] at h
    simp at h
  | succ n ih =>
    intro l pos r pos' h
    by_cases hsmall : l.length ≤ ALPAY_SMALL_THRESH
    · rw [fractalCore_succ_small g n l pos hsmall] at h
      injection h with h1
      injection h1 with h2 h3
      rw [← h2]
      exact ⟨(alpayTripleSortPivotArray_spec l).1, (alpayTripleSortPivotArray_spec l).2⟩
    · rw [fractalCore_succ_large g n l pos hsmall] at h
      cases hs : sortBuckets g n
          (distribute (alpayTripleSortPivotArray (pickPivots (pivotCountOf l.length)
            (trimSamples (pivotCountOf l.length)
              (alpayTripleSortPivotArray (drawSamples g pos l))))) l)
          (pos + sampleCountOf l.length) with
      | none => rw [hs] at h; simp at h
      | some pr =>
        obtain ⟨bs, q⟩ := pr
        rw [hs] at h
        dsimp only at h
        injection h with h1
        injection h1 with h2 h3
        have hforall := sortBuckets_sound g n ih _ _ _ _ hs
        have hsorted_bs := forall₂_sorted_right hforall
        obtain ⟨hmul, hsorted, -⟩ := alpayMultiBucketMerge_spec bs [] hsorted_bs
        have hcont : bucketsContents bs
            = bucketsContents (distribute (alpayTripleSortPivotArray
                (pickPivots (pivotCountOf l.length) (trimSamples (pivotCountOf l.length)
                  (alpayTripleSortPivotArray (drawSamples g pos l))))) l) :=
          forall₂_perm_contents hforall
        have hflat := distribute_flatten_perm
          (alpayTripleSortPivotArray (pickPivots (pivotCountOf l.length)
            (trimSamples (pivotCountOf l.length)
              (alpayTripleSortPivotArray (drawSamples g pos l))))) l
        have hml : (↑(alpayMultiBucketMerge bs []) : Multiset Int) = ↑l := by
          rw [hmul, hcont, bucketsContents_eq_coe_flatten]
          exact Multiset.coe_eq_coe.mpr hflat
        rw [← h2]
        exact ⟨Multiset.coe_eq_coe.mp hml, hsorted⟩

/-- Partial correctness at the full range: a completed run of the top-level
driver on `(arr, 0, length-1)` returns a sorted permutation of equal
length. -/
theorem alpayFractalSortAdvanced_full_sound (g : Nat → Nat) (fuel : Nat)
    (arr : List Int) (pos : Nat) (r : List Int) (pos' : Nat)
    (h : alpayFractalSortAdvanced g fuel arr 0 (arr.length - 1) pos = some (r, pos')) :
    List.Perm r arr ∧ List.Sorted (· ≤ ·) r ∧ r.length = arr.length := by
  unfold alpayFractalSortAdvanced at h
  by_cases hsmall : arr.length - 1 + 1 - 0 ≤ ALPAY_SMALL_THRESH
  · rw [if_pos hsmall] at h
    injection h with h1
    injection h1 with h2 h3
    have hfix : alpayTripleFixBidirectional arr 0 (arr.length - 1)
        = alpayTripleSortPivotArray arr := rfl
    rw [hfix] at h2
    rw [← h2]
    exact ⟨(alpayTripleSortPivotArray_spec arr).1, (alpayTripleSortPivotArray_spec arr).2,
      (alpayTripleSortPivotArray_spec arr).1.length_eq⟩
  · rw [if_neg hsmall] at h
    have hlen1 : 1 ≤ arr.length := by
      by_contra hc
      have : arr.length = 0 := by omega
      rw [this] at hsmall
      simp [ALPAY_SMALL_THRESH] at hsmall
    have hslice : slice arr 0 (arr.length - 1) = arr := by
      unfold slice
      rw [show arr.length - 1 + 1 - 0 = arr.length from by omega]
      simp
    rw [hslice] at h
    cases hc : fractalCore g fuel arr pos with
    | none => rw [hc] at h; simp at h
    | some pr =>
      obtain ⟨r0, q⟩ := pr
      rw [hc] at h
      dsimp only at h
      injection h with h1
      injection h1 with h2 h3
      have hdrop : arr.drop (arr.length - 1 + 1) = [] :=
        List.drop_eq_nil_of_le (by omega)
      rw [hdrop] at h2
      simp only [List.take_zero, List.nil_append, List.append_nil] at h2
      obtain ⟨hp, hsort⟩ := fractalCore_sound g fuel arr pos r0 q hc
      rw [← h2]
      exact ⟨hp, hsort, hp.length_eq⟩

theorem getD_replicate (n : Nat) (v : Int) (k : Nat) (hk : k < n) :
    (List.replicate n v).getD k 0 = v := by
  rw [List.getD_eq_getElem _ _ (by simpa using hk)]
  exact List.getElem_replicate v _

theorem sorted_replicate (n : Nat) (v : Int) :
    List.Sorted (· ≤ ·) (List.replicate n v) := by
  induction n with
  | zero => simp
  | succ m ih =>
    rw [List.replicate_succ]
    exact List.sorted_cons.mpr ⟨fun b hb => by rw [List.eq_of_mem_replicate hb], ih⟩

theorem bucketIndexOf_replicate_self (n : Nat) (v : Int) :
    bucketIndexOf (List.replicate n v) v = n := by
  unfold bucketIndexOf
  rw [List.takeWhile_replicate]
  simp

theorem pivotCountOf_13 : pivotCountOf 13 = 3 := by
  unfold pivotCountOf
  have h : Nat.sqrt 13 = 3 := by norm_num
  rw [h]
  rfl

theorem sampleCountOf_13 : sampleCountOf 13 = 6 := by
  rw [sampleCountOf_eq, pivotCountOf_13]

/-- The degenerate-pivot divergence: on a 13-element all-equal range every
sampled pivot equals the common value, the partition sends every element to
the last bucket (the loop advances past every pivot since `x >= pivots[b]`),
and the recursion re-enters on a full-size bucket.  Hence no recursion-depth
budget suffices: the C++ function never returns on this input. -/
theorem fractalCore_replicate13_none (g : Nat → Nat) (v : Int) :
    ∀ (fuel : Nat) (pos : Nat), fractalCore g fuel (List.replicate 13 v) pos = none := by
  intro fuel
  induction fuel with
  | zero => intro pos; exact fractalCore_zero g _ pos
  | succ n ih =>
    intro pos
    have hL : (List.replicate 13 v).length = 13 := by simp
    have hns : ¬ (List.replicate 13 v).length ≤ ALPAY_SMALL_THRESH := by
      rw [hL]
      decide
    rw [fractalCore_succ_large g n _ pos hns]
    have hp : pivotCountOf (List.replicate 13 v).length = 3 := by rw [hL]; exact pivotCountOf_13
    have hdraw : drawSamples g pos (List.replicate 13 v) = List.replicate 6 v := by
      unfold drawSamples
      rw [List.eq_replicate_iff]
      constructor
      · rw [List.length_map, List.length_range, hL, sampleCountOf_13]
      · intro b hb
        simp only [List.mem_map, List.mem_range] at hb
        obtain ⟨i, hi, rfl⟩ := hb
        rw [hL]
        exact getD_replicate 13 v _ (Nat.mod_lt _ (by norm_num))
    have hsamp : alpayTripleSortPivotArray (drawSamples g pos (List.replicate 13 v))
        = List.replicate 6 v := by
      rw [hdraw]
      exact alpayTripleSortPivotArray_of_sorted (sorted_replicate 6 v)
    have htrim : trimSamples (pivotCountOf (List.replicate 13 v).length)
        (alpayTripleSortPivotArray (drawSamples g pos (List.replicate 13 v)))
        = List.replicate 6 v := by
      rw [hsamp, hp]
      unfold trimSamples cutOf
      simp
    have hpick : pickPivots (pivotCountOf (List.replicate 13 v).length)
        (trimSamples (pivotCountOf (List.replicate 13 v).length)
          (alpayTripleSortPivotArray (drawSamples g pos (List.replicate 13 v))))
        = List.replicate 3 v := by
      rw [htrim, hp]
      unfold pickPivots stepOf
      rw [List.eq_replicate_iff]
      constructor
      · simp
      · intro b hb
        simp only [List.mem_map, List.mem_range] at hb
        obtain ⟨i, hi, rfl⟩ := hb
        apply getD_replicate
        simp
        omega
    have hpiv : alpayTripleSortPivotArray (pickPivots (pivotCountOf
        (List.replicate 13 v).length)
        (trimSamples (pivotCountOf (List.replicate 13 v).length)
          (alpayTripleSortPivotArray (drawSamples g pos (List.replicate 13 v)))))
        = List.replicate 3 v := by
      rw [hpick]
      exact alpayTripleSortPivotArray_of_sorted (sorted_replicate 3 v)
    have hdist : distribute (List.replicate 3 v) (List.replicate 13 v)
        = [[], [], [], List.replicate 13 v] := by
      rw [distribute_eq_filter]
      simp only [List.length_replicate]
      rw [show List.range (3 + 1) = [0, 1, 2, 3] from rfl]
      simp only [List.map_cons, List.map_nil]
      rw [List.filter_replicate, List.filter_replicate, List.filter_replicate,
        List.filter_replicate]
      rw [bucketIndexOf_replicate_self]
      norm_num
    have hbuck : ∀ pos2 : Nat,
        sortBuckets g n [[], [], [], List.replicate 13 v] pos2 = none := by
      intro pos2
      have hb4 : ∀ q : Nat, sortBuckets g n [List.replicate 13 v] q = none := by
        intro q
        rw [sortBuckets_cons, if_pos (by simp), ih q]
      have hb3 : ∀ q : Nat, sortBuckets g n [[], List.replicate 13 v] q = none := by
        intro q
        rw [sortBuckets_cons, if_neg (by simp), hb4 q]
      have hb2 : ∀ q : Nat, sortBuckets g n [[], [], List.replicate 13 v] q = none := by
        intro q
        rw [sortBuckets_cons, if_neg (by simp), hb3 q]
      rw [sortBuckets_cons, if_neg (by simp), hb2 pos2]
    rw [hpiv, hdist, hbuck]

theorem bucketIndexOf_lower (pivots : List Int) (x : Int) (j : Nat)
    (hj : j < bucketIndexOf pivots x) : pivots.getD j 0 ≤ x := by
  unfold bucketIndexOf at hj
  have h := takeWhile_getD_true (fun v => decide (v ≤ x)) pivots j hj
  simpa using h

theorem bucketIndexOf_upper (pivots : List Int) (x : Int)
    (hlt : bucketIndexOf pivots x < pivots.length) :
    x < pivots.getD (bucketIndexOf pivots x) 0 := by
  unfold bucketIndexOf at hlt ⊢
  have h := takeWhile_getD_false (fun v => decide (v ≤ x)) pivots hlt
  simp only [decide_eq_false_iff_not] at h
  omega

/-- The driver on the full 13-element all-equal range: every fuel yields
`none` (the range version of the divergence). -/
theorem alpayFractalSortAdvanced_replicate13_none (g : Nat → Nat) (v : Int)
    (fuel : Nat) (pos : Nat) :
    alpayFractalSortAdvanced g fuel (List.replicate 13 v) 0 12 pos = none := by
  unfold alpayFractalSortAdvanced
  rw [if_neg (by decide)]
  have hsl : slice (List.replicate 13 v) 0 12 = List.replicate 13 v := by
    unfold slice
    rw [List.drop_zero, show 12 + 1 - 0 = (List.replicate 13 v).length from by simp,
      List.take_length]
  rw [hsl, fractalCore_replicate13_none]

/-- Claim C1, as stated, is false: on the all-equal sequence
`replicate 13 5` (full range `(0, 12)`), `alpayFractalSortAdvanced` never
produces any output, for any recursion-depth budget — the C++ code recurses
forever, so it does not produce a sorted permutation of this input. -/
theorem claim_C1_counterexample :
    ¬ ∃ (fuel : Nat) (r : List Int) (pos' : Nat),
      alpayFractalSortAdvanced (fun _ => 0) fuel (List.replicate 13 (5 : Int)) 0 12 0
        = some (r, pos') := by
  rintro ⟨fuel, r, pos', h⟩
  rw [alpayFractalSortAdvanced_replicate13_none] at h
  exact Option.noConfusion h

/-- Claim C1 (amended): for every integer sequence, every random stream and
every run of `alpayFractalSortAdvanced` on the full range that terminates,
the output is an in-place non-decreasing permutation of the input; in
particular the output length equals the input length. -/
theorem claim_C1 (g : Nat → Nat) (fuel : Nat) (arr : List Int) (pos : Nat)
    (r : List Int) (pos' : Nat)
    (h : alpayFractalSortAdvanced g fuel arr 0 (arr.length - 1) pos = some (r, pos')) :
    List.Perm r arr ∧ List.Sorted (· ≤ ·) r ∧ r.length = arr.length :=
  alpayFractalSortAdvanced_full_sound g fuel arr pos r pos' h

/-- Witness for claim C1 at the concrete input `[3, 1, 2]`. -/
theorem claim_C1_witness :
    List.Perm ([1, 2, 3] : List Int) [3, 1, 2] ∧
      List.Sorted (· ≤ ·) ([1, 2, 3] : List Int) ∧
      ([1, 2, 3] : List Int).length = ([3, 1, 2] : List Int).length := by
  have h : alpayFractalSortAdvanced (fun _ => 0) 1 ([3, 1, 2] : List Int) 0
      (([3, 1, 2] : List Int).length - 1) 0 = some ([1, 2, 3], 0) := by decide
  exact claim_C1 (fun _ => 0) 1 [3, 1, 2] 0 [1, 2, 3] 0 h

/-- Claim C2: the claim (the algorithm always terminates; every recursive
call is strictly smaller) is right as the spec's intent, but the code
violates it: on a 13-element all-equal range all pivots equal the common
value, the partition puts the whole range into the last bucket (same size as
the parent), and the recursion never bottoms out — `fractalCore` returns
`none` at every recursion-depth budget, for every randomness stream,
position, and element value. -/
theorem claim_C2 (g : Nat → Nat) (v : Int) (fuel pos : Nat) :
    fractalCore g fuel (List.replicate 13 v) pos = none :=
  fractalCore_replicate13_none g v fuel pos

/-- Claim C3: for every range size above `ALPAY_SMALL_THRESH` and every
sample vector of the size the driver draws, after the optional outlier trim
the sample vector still holds at least `pivotCount` entries, and every
stride index `i * step` read by the pivot-selection loop is in bounds: no
out-of-bounds read occurs. -/
theorem claim_C3 (size : Nat) (samples : List Int)
    (hsize : ALPAY_SMALL_THRESH < size)
    (hlen : samples.length = sampleCountOf size) :
    pivotCountOf size ≤ (trimSamples (pivotCountOf size) samples).length ∧
    ∀ i < pivotCountOf size,
      i * stepOf (trimSamples (pivotCountOf size) samples).length (pivotCountOf size)
        < (trimSamples (pivotCountOf size) samples).length :=
  pivot_stride_in_bounds size samples hsize hlen

/-- Witness for claim C3 at size 13 with a sample vector of length 6. -/
theorem claim_C3_witness :
    pivotCountOf 13 ≤ (trimSamples (pivotCountOf 13) (List.replicate 6 (0 : Int))).length ∧
    ∀ i < pivotCountOf 13,
      i * stepOf (trimSamples (pivotCountOf 13) (List.replicate 6 (0 : Int))).length
        (pivotCountOf 13)
        < (trimSamples (pivotCountOf 13) (List.replicate 6 (0 : Int))).length :=
  claim_C3 13 (List.replicate 6 0) (by decide) (by rw [sampleCountOf_13]; simp)

/-- Claim C4: for every finite list of ascending buckets (any number of
buckets, empty buckets and duplicates included), `alpayMultiBucketMerge`
returns a list whose length is the sum of the bucket lengths, whose multiset
of elements is the union of the bucket contents, and which is
non-decreasing. -/
theorem claim_C4 (buckets : List (List Int)) (dest : List Int)
    (hb : ∀ bu ∈ buckets, List.Sorted (· ≤ ·) bu) :
    (alpayMultiBucketMerge buckets dest).length = (buckets.map List.length).sum ∧
    (↑(alpayMultiBucketMerge buckets dest) : Multiset Int) = bucketsContents buckets ∧
    List.Sorted (· ≤ ·) (alpayMultiBucketMerge buckets dest) := by
  obtain ⟨h1, h2, h3⟩ := alpayMultiBucketMerge_spec buckets dest hb
  exact ⟨h3, h1, h2⟩

/-- Witness for claim C4 on the buckets `[[1,4,7],[2,3],[],[0,9]]`. -/
theorem claim_C4_witness :
    (alpayMultiBucketMerge [[1, 4, 7], [2, 3], [], [0, 9]] []).length
        = (([[1, 4, 7], [2, 3], [], [0, 9]] : List (List Int)).map List.length).sum ∧
    (↑(alpayMultiBucketMerge [[1, 4, 7], [2, 3], [], [0, 9]] []) : Multiset Int)
        = bucketsContents [[1, 4, 7], [2, 3], [], [0, 9]] ∧
    List.Sorted (· ≤ ·) (alpayMultiBucketMerge [[1, 4, 7], [2, 3], [], [0, 9]] []) :=
  claim_C4 [[1, 4, 7], [2, 3], [], [0, 9]] [] (by decide)

/-- Claim C5: on every in-bounds range, `alpayTripleFixBidirectional` sorts
the inclusive subrange `[start, end]` in place — afterwards that subrange is
a non-decreasing permutation of its former contents while everything before
`start` and after `end` is untouched — and when `start ≥ end` the sequence
is left entirely unchanged. -/
theorem claim_C5 (arr : List Int) (s e : Nat) (hbound : e < arr.length) :
    List.Perm (slice (alpayTripleFixBidirectional arr s e) s e) (slice arr s e) ∧
    List.Sorted (· ≤ ·) (slice (alpayTripleFixBidirectional arr s e) s e) ∧
    (alpayTripleFixBidirectional arr s e).take s = arr.take s ∧
    (alpayTripleFixBidirectional arr s e).drop (e + 1) = arr.drop (e + 1) ∧
    (e ≤ s → alpayTripleFixBidirectional arr s e = arr) :=
  alpayTripleFixBidirectional_spec arr s e hbound

/-- Witness for claim C5 on `[5, 3, 9, 1]` with range `(1, 3)`. -/
theorem claim_C5_witness :
    List.Perm (slice (alpayTripleFixBidirectional [5, 3, 9, 1] 1 3) 1 3)
        (slice [5, 3, 9, 1] 1 3) ∧
    List.Sorted (· ≤ ·) (slice (alpayTripleFixBidirectional [5, 3, 9, 1] 1 3) 1 3) ∧
    (alpayTripleFixBidirectional [5, 3, 9, 1] 1 3).take 1
        = ([5, 3, 9, 1] : List Int).take 1 ∧
    (alpayTripleFixBidirectional [5, 3, 9, 1] 1 3).drop (3 + 1)
        = ([5, 3, 9, 1] : List Int).drop (3 + 1) ∧
    (3 ≤ 1 → alpayTripleFixBidirectional [5, 3, 9, 1] 1 3 = [5, 3, 9, 1]) :=
  claim_C5 [5, 3, 9, 1] 1 3 (by decide)

/-- Claim C6: the `while (changed)` loop of the fix pass terminates: a cycle
that fires a swap strictly decreases the inversion count, a cycle that fires
none leaves the list unchanged (and the loop exits), and consequently the
loop is total — any fuel above the inversion count computes the same final
value `tripleFixLoop`. -/
theorem claim_C6 (l : List Int) :
    ((fixCycle l).2 = true → inversions (fixCycle l).1 < inversions l) ∧
    ((fixCycle l).2 = false → (fixCycle l).1 = l) ∧
    (∀ fuel, inversions l < fuel → fixIter fuel l = tripleFixLoop l) := by
  obtain ⟨-, ci, ce⟩ := fixCycle_spec l
  refine ⟨?_, ce, fun fuel hf => fixIter_eq_tripleFixLoop fuel l hf⟩
  intro ht
  rw [ht] at ci
  simp only [eq_self_iff_true, if_true] at ci
  omega

/-- Witness for claim C6 on `[3, 1, 2]`. -/
theorem claim_C6_witness :
    inversions (fixCycle [3, 1, 2]).1 < inversions [3, 1, 2] ∧
    fixIter 3 [3, 1, 2] = tripleFixLoop [3, 1, 2] :=
  ⟨(claim_C6 [3, 1, 2]).1 (by decide), (claim_C6 [3, 1, 2]).2.2 3 (by decide)⟩

/-- Claim C7: for every ascending pivot sequence, the partition places each
element of the range into exactly one of `pivotCount + 1` buckets, the
bucket index being the number of pivots `≤` the element (bucket 0 holds
values below the first pivot, interior bucket `b` holds values in
`[pivot[b-1], pivot[b])`, the last bucket holds values `≥` the last pivot),
and the concatenation of the buckets is a permutation of the range. -/
theorem claim_C7 (pivots xs : List Int) (hsorted : List.Sorted (· ≤ ·) pivots) :
    (distribute pivots xs).length = pivots.length + 1 ∧
    List.Perm (distribute pivots xs).flatten xs ∧
    (∀ b ≤ pivots.length, ∀ x : Int,
      x ∈ (distribute pivots xs).getD b [] ↔
        x ∈ xs ∧ pivots.countP (fun v => decide (v ≤ x)) = b) ∧
    (∀ x : Int, x ∈ (distribute pivots xs).getD 0 [] → 0 < pivots.length →
      x < pivots.getD 0 0) ∧
    (∀ b : Nat, ∀ x : Int, 0 < b → b < pivots.length →
      x ∈ (distribute pivots xs).getD b [] →
        pivots.getD (b - 1) 0 ≤ x ∧ x < pivots.getD b 0) ∧
    (∀ x : Int, x ∈ (distribute pivots xs).getD pivots.length [] →
      0 < pivots.length → pivots.getD (pivots.length - 1) 0 ≤ x) := by
  refine ⟨distribute_length pivots xs, distribute_flatten_perm pivots xs, ?_, ?_, ?_, ?_⟩
  · intro b hb x
    rw [mem_distribute_iff pivots xs b (by omega) x, countP_eq_bucketIndexOf x hsorted]
  · intro x hx hp
    have h1 := (mem_distribute_iff pivots xs 0 (by omega) x).mp hx
    have h2 := h1.2
    have h3 := bucketIndexOf_upper pivots x (by rw [h2]; omega)
    rw [h2] at h3
    exact h3
  · intro b x hb0 hbl hx
    have h1 := (mem_distribute_iff pivots xs b (by omega) x).mp hx
    have h2 := h1.2
    constructor
    · exact bucketIndexOf_lower pivots x (b - 1) (by rw [h2]; omega)
    · have h3 := bucketIndexOf_upper pivots x (by rw [h2]; omega)
      rw [h2] at h3
      exact h3
  · intro x hx hp
    have h1 := (mem_distribute_iff pivots xs pivots.length (by omega) x).mp hx
    have h2 := h1.2
    exact bucketIndexOf_lower pivots x (pivots.length - 1) (by rw [h2]; omega)

/-- Witness for claim C7 with pivots `[3, 7]` and range `[1, 5, 9, 3]`. -/
theorem claim_C7_witness :
    (distribute [3, 7] [1, 5, 9, 3]).length = ([3, 7] : List Int).length + 1 ∧
    List.Perm (distribute [3, 7] [1, 5, 9, 3]).flatten [1, 5, 9, 3] ∧
    (∀ b ≤ ([3, 7] : List Int).length, ∀ x : Int,
      x ∈ (distribute [3, 7] [1, 5, 9, 3]).getD b [] ↔
        x ∈ ([1, 5, 9, 3] : List Int) ∧
          ([3, 7] : List Int).countP (fun v => decide (v ≤ x)) = b) ∧
    (∀ x : Int, x ∈ (distribute [3, 7] [1, 5, 9, 3]).getD 0 [] →
      0 < ([3, 7] : List Int).length → x < ([3, 7] : List Int).getD 0 0) ∧
    (∀ b : Nat, ∀ x : Int, 0 < b → b < ([3, 7] : List Int).length →
      x ∈ (distribute [3, 7] [1, 5, 9, 3]).getD b [] →
        ([3, 7] : List Int).getD (b - 1) 0 ≤ x ∧ x < ([3, 7] : List Int).getD b 0) ∧
    (∀ x : Int, x ∈ (distribute [3, 7] [1, 5, 9, 3]).getD ([3, 7] : List Int).length [] →
      0 < ([3, 7] : List Int).length →
      ([3, 7] : List Int).getD (([3, 7] : List Int).length - 1) 0 ≤ x) :=
  claim_C7 [3, 7] [1, 5, 9, 3] (by decide)

/-- Claim C8, as stated, is false: `replicate 13 5` is already sorted, yet
`alpayFractalSortAdvanced` on its full range produces no output at any
recursion-depth budget (the degenerate-pivot divergence), rather than the
unchanged sequence. -/
theorem claim_C8_counterexample :
    List.Sorted (· ≤ ·) (List.replicate 13 (5 : Int)) ∧
    ¬ ∃ (fuel : Nat) (r : List Int) (pos' : Nat),
      alpayFractalSortAdvanced (fun _ => 1) fuel (List.replicate 13 (5 : Int)) 0 12 0
        = some (r, pos') := by
  refine ⟨sorted_replicate 13 5, ?_⟩
  rintro ⟨fuel, r, pos', h⟩
  rw [alpayFractalSortAdvanced_replicate13_none] at h
  exact Option.noConfusion h

/-- Claim C8 (amended): on every already-sorted sequence and every run of
the full-range driver that terminates, the output equals the input
(idempotence of the sort on its terminating runs). -/
theorem claim_C8 (g : Nat → Nat) (fuel : Nat) (arr : List Int) (pos : Nat)
    (r : List Int) (pos' : Nat) (hsorted : List.Sorted (· ≤ ·) arr)
    (h : alpayFractalSortAdvanced g fuel arr 0 (arr.length - 1) pos = some (r, pos')) :
    r = arr := by
  obtain ⟨hp, hs, -⟩ := alpayFractalSortAdvanced_full_sound g fuel arr pos r pos' h
  exact List.eq_of_perm_of_sorted hp hs hsorted

/-- Witness for claim C8 on the sorted input `[1, 2, 3]`. -/
theorem claim_C8_witness : ([1, 2, 3] : List Int) = [1, 2, 3] := by
  have h : alpayFractalSortAdvanced (fun _ => 0) 1 ([1, 2, 3] : List Int) 0
      (([1, 2, 3] : List Int).length - 1) 0 = some ([1, 2, 3], 0) := by decide
  exact claim_C8 (fun _ => 0) 1 [1, 2, 3] 0 [1, 2, 3] 0 (by decide) h

/-- Claim C9: whenever the range size `end - start + 1` is at most
`ALPAY_SMALL_THRESH`, the driver delegates to the direct fix pass: the two
functions produce identical output on that sequence, for every randomness
stream and fuel. -/
theorem claim_C9 (g : Nat → Nat) (fuel : Nat) (arr : List Int) (s e pos : Nat)
    (hsmall : e + 1 - s ≤ ALPAY_SMALL_THRESH) :
    alpayFractalSortAdvanced g fuel arr s e pos
      = some (alpayTripleFixBidirectional arr s e, pos) := by
  unfold alpayFractalSortAdvanced
  rw [if_pos hsmall]

/-- Witness for claim C9 on `[9, 4, 6]` (size 3 ≤ 12). -/
theorem claim_C9_witness :
    alpayFractalSortAdvanced (fun _ => 0) 0 [9, 4, 6] 0 2 0
      = some (alpayTripleFixBidirectional [9, 4, 6] 0 2, 0) :=
  claim_C9 (fun _ => 0) 0 [9, 4, 6] 0 2 0 (by decide)

/-- Claim C10: `alpayMultiBucketMerge` clears `dest` before writing, so its
result depends only on the buckets, never on the destination's prior
contents: any two initial destinations yield identical output. -/
theorem claim_C10 (buckets : List (List Int)) (d1 d2 : List Int) :
    alpayMultiBucketMerge buckets d1 = alpayMultiBucketMerge buckets d2 := rfl

end AlpayFractal
